import Mathlib

/-!
Verification of the CSP engine of this repository against its specification.

The development shallowly embeds the two Python modules:

* `csp_ac3.py` — the AC-3 arc-consistency propagator (`revise`, `ac3`) together
  with the module's concrete chained-inequality instance; and
* `csp_backtracking.py` — the backtracking search engine with forward checking
  (`backtrack`, `select_unassigned_variable`, `is_consistent`,
  `forward_checking`, `remove_inference`) over the `CSP` class whose neighbor
  map is derived from the constraint pair list.

Variables are an arbitrary type with decidable equality; domain values are
natural numbers.  Mutable state (the domain store, the assignment dictionary)
becomes explicit state passing; the unbounded `while`/recursion becomes
fuel-indexed structural recursion returning `none` when the fuel runs out,
and termination theorems show that enough fuel always exists.
-/

namespace CSP

variable {Var : Type} [DecidableEq Var]

/-! ## Embedding of `csp_ac3.py` -/

/-- The dictionary `{'variables', 'domains', 'neighbors', 'constraints'}`
consumed by `ac3` in `csp_ac3.py`.  `constraints` is the binary predicate
`constraints(xi, x, xj, y)`. -/
structure AcCSP (Var : Type) where
  vars : List Var
  domains : Var → List Nat
  neighbors : Var → List Var
  constraints : Var → Nat → Var → Nat → Bool

/-- Pointwise update of a domain store, modelling in-place mutation of
`csp['domains'][v]`. -/
def updD (d : Var → List Nat) (v : Var) (l : List Nat) : Var → List Nat :=
  fun w => if w = v then l else d w

/-- Support check: `any(csp['constraints'](xi, x, xj, y) for y in csp['domains'][xj])`. -/
def supported (pred : Var → Nat → Var → Nat → Bool) (d : Var → List Nat)
    (xi : Var) (x : Nat) (xj : Var) : Bool :=
  (d xj).any (fun y => pred xi x xj y)

/-- Body of `revise`: iterate over the snapshot `csp['domains'][xi][:]`,
removing each unsupported value from the live domain of `xi`
(`list.remove` deletes the first occurrence). -/
def reviseAux (pred : Var → Nat → Var → Nat → Bool) (xi xj : Var) :
    List Nat → (Var → List Nat) → Bool → Bool × (Var → List Nat)
  | [], d, rev => (rev, d)
  | x :: xs, d, rev =>
    if supported pred d xi x xj then
      reviseAux pred xi xj xs d rev
    else
      reviseAux pred xi xj xs (updD d xi ((d xi).erase x)) true

/-- The function `revise(csp, xi, xj)` of `csp_ac3.py`: returns the
`revised` flag and the CSP with the mutated domain store. -/
def revise (csp : AcCSP Var) (xi xj : Var) : Bool × AcCSP Var :=
  let r := reviseAux csp.constraints xi xj (csp.domains xi) csp.domains false
  (r.1, { csp with domains := r.2 })

/-- The initial worklist
`deque([(xi, xj) for xi in csp['variables'] for xj in csp['neighbors'][xi]])`. -/
def initQueue (csp : AcCSP Var) : List (Var × Var) :=
  csp.vars.flatMap (fun xi => (csp.neighbors xi).map (fun xj => (xi, xj)))

/-- Arcs appended to the worklist after a successful revision of `xi` against
`xj`: `(xk, xi)` for every neighbor `xk` of `xi` other than `xj`. -/
def enqueueArcs (csp : AcCSP Var) (xi xj : Var) : List (Var × Var) :=
  ((csp.neighbors xi).filter (fun xk => xk ≠ xj)).map (fun xk => (xk, xi))

/-- The `while queue:` loop of `ac3`, fuel-indexed.  `none` in the first
component means the fuel ran out before the loop returned. -/
def ac3Loop : Nat → List (Var × Var) → AcCSP Var → Option Bool × AcCSP Var
  | 0, _, csp => (none, csp)
  | _ + 1, [], csp => (some true, csp)
  | fuel + 1, (xi, xj) :: rest, csp =>
    let r := revise csp xi xj
    if r.1 then
      if (r.2.domains xi).isEmpty then (some false, r.2)
      else ac3Loop fuel (rest ++ enqueueArcs csp xi xj) r.2
    else ac3Loop fuel rest r.2

/-- The function `ac3(csp)` of `csp_ac3.py`, fuel-indexed. -/
def ac3 (fuel : Nat) (csp : AcCSP Var) : Option Bool × AcCSP Var :=
  ac3Loop fuel (initQueue csp) csp

/-! ### The module's concrete instance (lines 49–76 of `csp_ac3.py`) -/

/-- The three variables `'A'. 'B', 'C'` of the module-level examples. -/
inductive V3 : Type
  | A
  | B
  | C
deriving DecidableEq

open V3 in
/-- The predicate `constraint` of `csp_ac3.py`: `B = A + 1` and `C ≠ B`,
no constraint between other pairs. -/
def constraintAc : V3 → Nat → V3 → Nat → Bool
  | B, x, A, y => x == y + 1
  | A, x, B, y => x + 1 == y
  | C, x, B, y => x != y
  | B, x, C, y => x != y
  | _, _, _, _ => true

open V3 in
/-- The module-level `csp` dictionary of `csp_ac3.py` (with `constraints`
set to `constraint`). -/
def cspAc : AcCSP V3 where
  vars := [A, B, C]
  domains
    | A => [1, 2, 3]
    | B => [1, 2, 3]
    | C => [2, 3]
  neighbors
    | A => [B]
    | B => [A, C]
    | C => [B]
  constraints := constraintAc

/-! ## Embedding of `csp_backtracking.py` -/

/-- The `CSP` class of `csp_backtracking.py`: a variable list and a list of
constrained pairs (the neighbor map is derived, see `btNeighbors`).
Domains are threaded separately because the solver mutates them. -/
structure BtCSP (Var : Type) where
  vars : List Var
  constraints : List (Var × Var)

/-- The `_build_neighbors` method: for every pair `(v1, v2)` in the constraint
list, `v2` is appended to `neighbors[v1]` and then `v1` to `neighbors[v2]`,
in constraint-list order. -/
def btNeighbors (csp : BtCSP Var) : Var → List Var :=
  fun v =>
    csp.constraints.flatMap
      (fun p => (if p.1 = v then [p.2] else []) ++ (if p.2 = v then [p.1] else []))

/-- Python dict lookup `assignment[v]` / membership test, on the association
list modelling the assignment dict (keys are unique throughout the search). -/
def alookup (a : List (Var × Nat)) (v : Var) : Option Nat :=
  match a with
  | [] => none
  | (k, x) :: rest => if k = v then some x else alookup rest v

/-- First phase of the MRV heuristic `min(unassigned, key=...)`: Python's
`min` keeps the first element whose key is strictly smaller than the current
best, hence returns the first minimizer; it faults on an empty list, which is
modelled by `none`. -/
def minByDomLen (d : Var → List Nat) : List Var → Option Var
  | [] => none
  | v :: vs => some (vs.foldl (fun best w => if (d w).length < (d best).length then w else best) v)

/-- The function `select_unassigned_variable(assignment, csp)`:
MRV over `[v for v in csp.variables if v not in assignment]`. -/
def select_unassigned_variable (a : List (Var × Nat)) (d : Var → List Nat)
    (csp : BtCSP Var) : Option Var :=
  minByDomLen d (csp.vars.filter (fun v => (alookup a v).isNone))

/-- The function `is_consistent(var, value, assignment, csp)`: no assigned
neighbor of `var` may already hold `value`. -/
def is_consistent (nb : Var → List Var) (var : Var) (value : Nat)
    (a : List (Var × Nat)) : Bool :=
  (nb var).all (fun n => !(alookup a n == some value))

/-- Python dict store `removed[neighbor] = [value]`: overwrite the entry if
the key is present, else append it (insertion order preserved). -/
def dictInsertRec : List (Var × List Nat) → Var → List Nat → List (Var × List Nat)
  | [], k, val => [(k, val)]
  | (k', v') :: rest, k, val =>
    if k' = k then (k, val) :: rest else (k', v') :: dictInsertRec rest k val

/-- Loop of `forward_checking`: walk the neighbors of the newly assigned
variable; prune `value` from each unassigned neighbor's domain, recording the
removal; if a domain becomes empty return `None` at once (the record built so
far is discarded, exactly as in the source). -/
def fcAux (value : Nat) (a : List (Var × Nat)) :
    List Var → (Var → List Nat) → List (Var × List Nat) →
    Option (List (Var × List Nat)) × (Var → List Nat)
  | [], d, removed => (some removed, d)
  | n :: rest, d, removed =>
    if (alookup a n).isNone && (d n).contains value then
      let d' := updD d n ((d n).erase value)
      if (d' n).isEmpty then (none, d')
      else fcAux value a rest d' (dictInsertRec removed n [value])
    else fcAux value a rest d removed

/-- The function `forward_checking(var, value, assignment, csp)`; the final
`return removed if removed else {}` returns the empty dict either way, so no
separate case is needed. -/
def forward_checking (nb : Var → List Var) (var : Var) (value : Nat)
    (a : List (Var × Nat)) (d : Var → List Nat) :
    Option (List (Var × List Nat)) × (Var → List Nat) :=
  fcAux value a (nb var) d []

/-- Inner loop of `remove_inference`: re-append each recorded value that is
absent from the neighbor's current domain. -/
def restoreVals (dom : List Nat) (vals : List Nat) : List Nat :=
  vals.foldl (fun acc val => if val ∈ acc then acc else acc ++ [val]) dom

/-- The function `remove_inference(var, value, inferences, assignment, csp)`:
restore recorded removals (re-sorting each touched domain ascending), or do
nothing at all when `inferences` is `None`. -/
def remove_inference (inferences : Option (List (Var × List Nat)))
    (d : Var → List Nat) : Var → List Nat :=
  match inferences with
  | none => d
  | some infs =>
    infs.foldl
      (fun d p => updD d p.1 (List.insertionSort (· ≤ ·) (restoreVals (d p.1) p.2))) d

/-- The `for value in domain_values(var, assignment, csp)` loop of
`backtrack`, abstracted over the recursive call `bt`.  The iterated list is
the domain of `var` at loop entry (the solver never mutates the domain of a
variable while it is assigned, so the live list and the snapshot agree). -/
def tryValues
    (bt : List (Var × Nat) → (Var → List Nat) →
      Option (Option (List (Var × Nat))) × (Var → List Nat))
    (csp : BtCSP Var) (var : Var) (a : List (Var × Nat)) :
    List Nat → (Var → List Nat) →
      Option (Option (List (Var × Nat))) × (Var → List Nat)
  | [], d => (some none, d)
  | v :: vs, d =>
    if is_consistent (btNeighbors csp) var v a then
      let a' := a ++ [(var, v)]
      let fc := forward_checking (btNeighbors csp) var v a' d
      match fc.1 with
      | some infs =>
        match bt a' fc.2 with
        | (some (some r), d2) => (some (some r), d2)
        | (some none, d2) => tryValues bt csp var a vs (remove_inference (some infs) d2)
        | (none, d2) => (none, d2)
      | none => tryValues bt csp var a vs (remove_inference none fc.2)
    else tryValues bt csp var a vs d

/-- The function `backtrack(assignment, csp)` of `csp_backtracking.py`,
fuel-indexed: `(some (some r), d)` is a returned assignment, `(some none, d)`
is the `None` failure value, and `(none, d)` means the fuel ran out (or
`min` was applied to an empty unassigned list, which cannot happen for a
duplicate-free variable list). -/
def backtrackF :
    Nat → List (Var × Nat) → (Var → List Nat) → BtCSP Var →
      Option (Option (List (Var × Nat))) × (Var → List Nat)
  | 0, _, d, _ => (none, d)
  | fuel + 1, a, d, csp =>
    if a.length = csp.vars.length then (some (some a), d)
    else
      match select_unassigned_variable a d csp with
      | none => (none, d)
      | some var => tryValues (fun a' d' => backtrackF fuel a' d' csp) csp var a (d var) d

/-! ## Concrete instances used by individual claims -/

open V3 in
/-- Three-variable all-different triangle for the backtracking solver:
variables `A, B, C`, one constraint pair per pair of variables. -/
def cspTri : BtCSP V3 := ⟨[A, B, C], [(A, B), (A, C), (B, C)]⟩

open V3 in
/-- Initial domain store for the three-variable instances. -/
def mkDoms (dA dB dC : List Nat) : V3 → List Nat
  | A => dA
  | B => dB
  | C => dC

open V3 in
/-- A returned assignment solves the all-different triangle: every variable is
mapped and the three values are pairwise distinct. -/
def validTriAssign (r : List (V3 × Nat)) : Bool :=
  match alookup r A, alookup r B, alookup r C with
  | some x, some y, some z => x != y && x != z && y != z
  | _, _, _ => false

open V3 in
/-- An `AcCSP` on which `ac3` returns `false`: two mutually neighboring
variables with singleton domains `[1]` and `[2]` under an equality
constraint (`C` is isolated and unused). -/
def cspHalt : AcCSP V3 where
  vars := [A, B]
  domains
    | A => [1]
    | B => [2]
    | C => []
  neighbors
    | A => [B]
    | B => [A]
    | C => []
  constraints := fun _ x _ y => x == y

open V3 in
/-- An `AcCSP` where revising the arc `(A, B)` empties the domain of `A`
while `A` still has the further neighbor `C`: used to show that `ac3` skips
the re-enqueue step when a revision wipes a domain out. -/
def cspWipe : AcCSP V3 where
  vars := [A, B, C]
  domains
    | A => [1]
    | B => [2]
    | C => [1]
  neighbors
    | A => [B, C]
    | B => [A]
    | C => [A]
  constraints := fun _ x _ y => x == y

/-! ## Auxiliary notions used to state the claims -/

/-- Total size of the domain store over the variable list: the termination
measure component that every successful revision strictly decreases. -/
def domSum (csp : AcCSP Var) : Nat :=
  (csp.vars.map (fun v => (csp.domains v).length)).sum

/-- Upper bound on the number of arcs a single revision can enqueue: the
longest neighbor list of any variable. -/
def nbBound (csp : AcCSP Var) : Nat :=
  (csp.vars.map (fun v => (csp.neighbors v).length)).foldr max 0

/-- Erase from `cur` the elements of the snapshot that fail `p`, in snapshot
order: the pure-list skeleton of the `revise` loop. -/
def eraseFold (p : Nat → Bool) : List Nat → List Nat → List Nat
  | [], cur => cur
  | x :: xs, cur => if p x then eraseFold p xs cur else eraseFold p xs (cur.erase x)

/-- `r` is one of the triangle's variables and `p, q` are the other two in
variable order: the shapes a root selection can take on `cspTri`. -/
def triRoles (r p q : V3) : Prop :=
  (r = V3.A ∧ p = V3.B ∧ q = V3.C) ∨ (r = V3.B ∧ p = V3.A ∧ q = V3.C) ∨
    (r = V3.C ∧ p = V3.A ∧ q = V3.B)

/-- `r, X, n` is any enumeration of the triangle's variables: root, the
variable selected at depth 1, and the remaining variable. -/
def triRoles2 (r X n : V3) : Prop :=
  (r = V3.A ∧ X = V3.B ∧ n = V3.C) ∨ (r = V3.A ∧ X = V3.C ∧ n = V3.B) ∨
    (r = V3.B ∧ X = V3.A ∧ n = V3.C) ∨ (r = V3.B ∧ X = V3.C ∧ n = V3.A) ∨
    (r = V3.C ∧ X = V3.A ∧ n = V3.B) ∨ (r = V3.C ∧ X = V3.B ∧ n = V3.A)

/-- Big-step characterization of the `while queue:` loop of `ac3`
(claim C4): a run relates the starting worklist and CSP to the returned
boolean and the final CSP.

* `done`: the worklist is empty — the only way to return `True`;
* `wipe`: the popped arc is revised and empties the domain of `xi` — the loop
  returns `False` at once, with the remaining worklist `rest` left
  unprocessed (it does not occur in the premises or the result);
* `revised`: a revision that leaves the domain nonempty re-enqueues
  `(xk, xi)` for the neighbors `xk ≠ xj` and continues;
* `noRevision`: an unrevised arc is simply dropped. -/
inductive Ac3Steps : List (Var × Var) → AcCSP Var → Bool → AcCSP Var → Prop
  | done (csp : AcCSP Var) : Ac3Steps [] csp true csp
  | wipe (xi xj : Var) (rest : List (Var × Var)) (csp : AcCSP Var) :
      (revise csp xi xj).1 = true →
      ((revise csp xi xj).2.domains xi).isEmpty = true →
      Ac3Steps ((xi, xj) :: rest) csp false (revise csp xi xj).2
  | revised (xi xj : Var) (rest : List (Var × Var)) (csp : AcCSP Var)
      (b : Bool) (cspF : AcCSP Var) :
      (revise csp xi xj).1 = true →
      ((revise csp xi xj).2.domains xi).isEmpty = false →
      Ac3Steps (rest ++ enqueueArcs csp xi xj) (revise csp xi xj).2 b cspF →
      Ac3Steps ((xi, xj) :: rest) csp b cspF
  | noRevision (xi xj : Var) (rest : List (Var × Var)) (csp : AcCSP Var)
      (b : Bool) (cspF : AcCSP Var) :
      (revise csp xi xj).1 = false →
      Ac3Steps rest (revise csp xi xj).2 b cspF →
      Ac3Steps ((xi, xj) :: rest) csp b cspF

end CSP

namespace CSP

variable {Var : Type} [DecidableEq Var]

/-! ## Theorems -/

/-! ### Properties of `revise` -/

theorem reviseAux_domains_ne (pred : Var → Nat → Var → Nat → Bool) (xi xj : Var) :
    ∀ (xs : List Nat) (d : Var → List Nat) (rev : Bool) (w : Var), w ≠ xi →
      (reviseAux pred xi xj xs d rev).2 w = d w := by
  intro xs
  induction xs with
  | nil => intro d rev w _; rfl
  | cons x xs ih =>
    intro d rev w hw
    simp only [reviseAux]
    by_cases h : supported pred d xi x xj = true
    · rw [if_pos h]; exact ih d rev w hw
    · rw [if_neg h, ih _ true w hw]
      simp [updD, hw]

theorem reviseAux_sublist (pred : Var → Nat → Var → Nat → Bool) (xi xj : Var) :
    ∀ (xs : List Nat) (d : Var → List Nat) (rev : Bool) (w : Var),
      List.Sublist ((reviseAux pred xi xj xs d rev).2 w) (d w) := by
  intro xs
  induction xs with
  | nil => intro d rev w; exact List.Sublist.refl _
  | cons x xs ih =>
    intro d rev w
    simp only [reviseAux]
    by_cases h : supported pred d xi x xj = true
    · rw [if_pos h]; exact ih d rev w
    · rw [if_neg h]
      refine (ih _ true w).trans ?_
      by_cases hw : w = xi
      · subst hw; simp only [updD, if_pos rfl]; exact List.erase_sublist _ _
      · simp [updD, hw]

theorem reviseAux_flag_stays (pred : Var → Nat → Var → Nat → Bool) (xi xj : Var) :
    ∀ (xs : List Nat) (d : Var → List Nat), (reviseAux pred xi xj xs d true).1 = true := by
  intro xs
  induction xs with
  | nil => intro d; rfl
  | cons x xs ih =>
    intro d
    simp only [reviseAux]
    by_cases h : supported pred d xi x xj = true
    · rw [if_pos h]; exact ih d
    · rw [if_neg h]; exact ih _

theorem reviseAux_unchanged (pred : Var → Nat → Var → Nat → Bool) (xi xj : Var) :
    ∀ (xs : List Nat) (d : Var → List Nat) (rev : Bool),
      (reviseAux pred xi xj xs d rev).1 = false → (reviseAux pred xi xj xs d rev).2 = d := by
  intro xs
  induction xs with
  | nil => intro d rev _; rfl
  | cons x xs ih =>
    intro d rev hf
    simp only [reviseAux] at hf ⊢
    by_cases h : supported pred d xi x xj = true
    · rw [if_pos h] at hf ⊢; exact ih d rev hf
    · rw [if_neg h] at hf
      rw [reviseAux_flag_stays] at hf
      exact absurd hf (by simp)

theorem eraseFold_congr (p q : Nat → Bool) (hpq : ∀ x, p x = q x) :
    ∀ (xs cur : List Nat), eraseFold p xs cur = eraseFold q xs cur := by
  intro xs
  induction xs with
  | nil => intro cur; rfl
  | cons x xs ih =>
    intro cur
    simp only [eraseFold, hpq x]
    by_cases h : q x = true
    · rw [if_pos h, if_pos h]; exact ih cur
    · rw [if_neg h, if_neg h]; exact ih _

theorem eraseFold_cons_pos (p : Nat → Bool) (x : Nat) (hx : p x = true) :
    ∀ (xs cur : List Nat), eraseFold p xs (x :: cur) = x :: eraseFold p xs cur := by
  intro xs
  induction xs with
  | nil => intro cur; rfl
  | cons y ys ih =>
    intro cur
    simp only [eraseFold]
    by_cases h : p y = true
    · rw [if_pos h, if_pos h]; exact ih cur
    · rw [if_neg h, if_neg h]
      have hxy : ¬(x == y) = true := by
        simp only [beq_iff_eq]
        intro he
        exact h (he ▸ hx)
      rw [List.erase_cons_tail hxy]
      exact ih _

theorem eraseFold_self (p : Nat → Bool) : ∀ l : List Nat, eraseFold p l l = l.filter p := by
  intro l
  induction l with
  | nil => rfl
  | cons x xs ih =>
    simp only [eraseFold]
    by_cases h : p x = true
    · rw [if_pos h, List.filter_cons_of_pos h, eraseFold_cons_pos p x h, ih]
    · rw [if_neg h, List.erase_cons_head, List.filter_cons_of_neg (by simp [h]), ih]

theorem supported_updD (pred : Var → Nat → Var → Nat → Bool) (d : Var → List Nat)
    (xi xj : Var) (hne : xi ≠ xj) (l : List Nat) (z : Var) (x : Nat) :
    supported pred (updD d xi l) z x xj = supported pred d z x xj := by
  simp only [supported, updD]
  rw [if_neg (fun h => hne h.symm)]

theorem reviseAux_eraseFold (pred : Var → Nat → Var → Nat → Bool) (xi xj : Var)
    (hne : xi ≠ xj) :
    ∀ (xs : List Nat) (d : Var → List Nat) (rev : Bool),
      (reviseAux pred xi xj xs d rev).2 xi
        = eraseFold (fun x => supported pred d xi x xj) xs (d xi) := by
  intro xs
  induction xs with
  | nil => intro d rev; rfl
  | cons x xs ih =>
    intro d rev
    simp only [reviseAux, eraseFold]
    by_cases h : supported pred d xi x xj = true
    · rw [if_pos h, if_pos h]; exact ih d rev
    · rw [if_neg h, if_neg h, ih _ true]
      have hupd : (updD d xi ((d xi).erase x)) xi = (d xi).erase x := by simp [updD]
      rw [hupd]
      exact eraseFold_congr _ _ (fun y => supported_updD pred d xi xj hne _ xi y) _ _

theorem revise_domains_eq_filter (csp : AcCSP Var) (xi xj : Var) (hne : xi ≠ xj) :
    (revise csp xi xj).2.domains xi
      = (csp.domains xi).filter
          (fun x => supported csp.constraints csp.domains xi x xj) := by
  show (reviseAux csp.constraints xi xj (csp.domains xi) csp.domains false).2 xi = _
  rw [reviseAux_eraseFold csp.constraints xi xj hne, eraseFold_self]

theorem revise_domains_ne (csp : AcCSP Var) (xi xj w : Var) (hw : w ≠ xi) :
    (revise csp xi xj).2.domains w = csp.domains w :=
  reviseAux_domains_ne csp.constraints xi xj _ _ _ w hw

theorem reviseAux_flag_any (pred : Var → Nat → Var → Nat → Bool) (xi xj : Var) :
    ∀ (xs : List Nat) (d : Var → List Nat) (rev : Bool),
      (reviseAux pred xi xj xs d rev).1
        = (rev || xs.any (fun x => !supported pred d xi x xj)) := by
  intro xs
  induction xs with
  | nil => intro d rev; simp [reviseAux]
  | cons x xs ih =>
    intro d rev
    simp only [reviseAux, List.any_cons]
    by_cases h : supported pred d xi x xj = true
    · rw [if_pos h, ih d rev, h]
      simp
    · rw [if_neg h, reviseAux_flag_stays]
      have hx : (!supported pred d xi x xj) = true := by
        simp [Bool.eq_false_iff.mpr h]
      rw [hx]
      simp

theorem revise_flag_any (csp : AcCSP Var) (xi xj : Var) :
    (revise csp xi xj).1
      = (csp.domains xi).any
          (fun x => !supported csp.constraints csp.domains xi x xj) := by
  show (reviseAux csp.constraints xi xj (csp.domains xi) csp.domains false).1 = _
  rw [reviseAux_flag_any csp.constraints xi xj]
  simp

theorem revise_vars (csp : AcCSP Var) (xi xj : Var) :
    (revise csp xi xj).2.vars = csp.vars := rfl

theorem revise_neighbors (csp : AcCSP Var) (xi xj : Var) :
    (revise csp xi xj).2.neighbors = csp.neighbors := rfl

theorem revise_constraints (csp : AcCSP Var) (xi xj : Var) :
    (revise csp xi xj).2.constraints = csp.constraints := rfl

theorem revise_eq_self (csp : AcCSP Var) (xi xj : Var)
    (h : (revise csp xi xj).1 = false) : (revise csp xi xj).2 = csp := by
  have h2 := reviseAux_unchanged csp.constraints xi xj (csp.domains xi) csp.domains false h
  show { csp with domains := (reviseAux csp.constraints xi xj (csp.domains xi) csp.domains false).2 } = csp
  rw [h2]

theorem revise_domains_sublist (csp : AcCSP Var) (xi xj w : Var) :
    List.Sublist ((revise csp xi xj).2.domains w) (csp.domains w) :=
  reviseAux_sublist csp.constraints xi xj _ _ _ w

/-! ### Properties of the `ac3` worklist loop -/

theorem ac3Loop_fields :
    ∀ (fuel : Nat) (q : List (Var × Var)) (csp : AcCSP Var),
      (ac3Loop fuel q csp).2.vars = csp.vars ∧
      (ac3Loop fuel q csp).2.neighbors = csp.neighbors ∧
      (ac3Loop fuel q csp).2.constraints = csp.constraints := by
  intro fuel
  induction fuel with
  | zero => intro q csp; exact ⟨rfl, rfl, rfl⟩
  | succ n ih =>
    intro q csp
    rcases q with _ | ⟨⟨xi, xj⟩, rest⟩
    · exact ⟨rfl, rfl, rfl⟩
    · simp only [ac3Loop]
      by_cases h1 : (revise csp xi xj).1 = true
      · rw [if_pos h1]
        by_cases h2 : ((revise csp xi xj).2.domains xi).isEmpty = true
        · rw [if_pos h2]; exact ⟨rfl, rfl, rfl⟩
        · rw [if_neg h2]
          exact ⟨(ih _ _).1, (ih _ _).2.1, (ih _ _).2.2⟩
      · rw [if_neg h1]
        exact ⟨(ih _ _).1, (ih _ _).2.1, (ih _ _).2.2⟩

theorem ac3Loop_domains_sublist :
    ∀ (fuel : Nat) (q : List (Var × Var)) (csp : AcCSP Var) (v : Var),
      List.Sublist ((ac3Loop fuel q csp).2.domains v) (csp.domains v) := by
  intro fuel
  induction fuel with
  | zero => intro q csp v; exact List.Sublist.refl _
  | succ n ih =>
    intro q csp v
    rcases q with _ | ⟨⟨xi, xj⟩, rest⟩
    · exact List.Sublist.refl _
    · simp only [ac3Loop]
      by_cases h1 : (revise csp xi xj).1 = true
      · rw [if_pos h1]
        by_cases h2 : ((revise csp xi xj).2.domains xi).isEmpty = true
        · rw [if_pos h2]; exact revise_domains_sublist csp xi xj v
        · rw [if_neg h2]
          exact (ih _ _ v).trans (revise_domains_sublist csp xi xj v)
      · rw [if_neg h1]
        exact (ih _ _ v).trans (revise_domains_sublist csp xi xj v)

theorem ac3Loop_mono :
    ∀ (f : Nat) (q : List (Var × Var)) (csp : AcCSP Var) (g : Nat), f ≤ g →
      (ac3Loop f q csp).1.isSome = true → ac3Loop g q csp = ac3Loop f q csp := by
  intro f
  induction f with
  | zero => intro q csp g _ h; exact absurd h (by simp [ac3Loop])
  | succ n ih =>
    intro q csp g hg h
    obtain ⟨m, rfl⟩ : ∃ m, g = m + 1 := ⟨g - 1, by omega⟩
    rcases q with _ | ⟨⟨xi, xj⟩, rest⟩
    · rfl
    · have hm : n ≤ m := by omega
      simp only [ac3Loop] at h ⊢
      by_cases h1 : (revise csp xi xj).1 = true
      · simp only [if_pos h1] at h ⊢
        by_cases h2 : ((revise csp xi xj).2.domains xi).isEmpty = true
        · simp only [if_pos h2]
        · simp only [if_neg h2] at h ⊢
          exact ih _ _ m hm h
      · simp only [if_neg h1] at h ⊢
        exact ih _ _ m hm h

/-- **C10** Monotone pruning: an `ac3` run (any fuel) never adds a value to
any domain — every final domain is a sublist (subset in the original relative
order) of the initial one — and it leaves the variable list, the neighbor
mapping, and the constraint predicate unchanged. -/
theorem ac3_prunes_monotonically (csp : AcCSP Var) (fuel : Nat) :
    (∀ v : Var, List.Sublist ((ac3 fuel csp).2.domains v) (csp.domains v)) ∧
    (ac3 fuel csp).2.vars = csp.vars ∧
    (ac3 fuel csp).2.neighbors = csp.neighbors ∧
    (ac3 fuel csp).2.constraints = csp.constraints :=
  ⟨fun v => ac3Loop_domains_sublist fuel (initQueue csp) csp v,
   (ac3Loop_fields fuel (initQueue csp) csp).1,
   (ac3Loop_fields fuel (initQueue csp) csp).2.1,
   (ac3Loop_fields fuel (initQueue csp) csp).2.2⟩

/-- **C4** Big-step characterization of `ac3`: terminating runs of the
worklist loop (some fuel suffices) are exactly the derivations of
`Ac3Steps`, whose `wipe` constructor returns `False` the moment a revision
empties a domain — with the remaining worklist discarded — and whose only
`True`-returning constructor is the empty worklist; moreover the second
conjunct states the immediate-`False` step equation explicitly: the result
does not depend on the arcs still queued behind the wiped one. -/
theorem ac3_run_characterization :
    (∀ (q : List (Var × Var)) (csp : AcCSP Var) (b : Bool) (cspF : AcCSP Var),
        (∃ fuel, ac3Loop fuel q csp = (some b, cspF)) ↔ Ac3Steps q csp b cspF) ∧
    (∀ (xi xj : Var) (rest : List (Var × Var)) (csp : AcCSP Var) (fuel : Nat),
        (revise csp xi xj).1 = true →
        ((revise csp xi xj).2.domains xi).isEmpty = true →
        ac3Loop (fuel + 1) ((xi, xj) :: rest) csp = (some false, (revise csp xi xj).2)) := by
  have fwd : ∀ (fuel : Nat) (q : List (Var × Var)) (csp : AcCSP Var) (b : Bool)
      (cspF : AcCSP Var), ac3Loop fuel q csp = (some b, cspF) → Ac3Steps q csp b cspF := by
    intro fuel
    induction fuel with
    | zero =>
      intro q csp b cspF h
      exact absurd (congrArg Prod.fst h) (by simp [ac3Loop])
    | succ n ih =>
      intro q csp b cspF h
      rcases q with _ | ⟨⟨xi, xj⟩, rest⟩
      · have h1 : some true = some b := congrArg Prod.fst h
        have h2 : csp = cspF := congrArg Prod.snd h
        cases Option.some.inj h1
        cases h2
        exact Ac3Steps.done csp
      · simp only [ac3Loop] at h
        by_cases h1 : (revise csp xi xj).1 = true
        · rw [if_pos h1] at h
          by_cases h2 : ((revise csp xi xj).2.domains xi).isEmpty = true
          · rw [if_pos h2] at h
            have hb : some false = some b := congrArg Prod.fst h
            cases Option.some.inj hb
            have hc : (revise csp xi xj).2 = cspF := congrArg Prod.snd h
            cases hc
            exact Ac3Steps.wipe xi xj rest csp h1 h2
          · rw [if_neg h2] at h
            exact Ac3Steps.revised xi xj rest csp b cspF h1
              (Bool.not_eq_true _ ▸ Bool.of_not_eq_true h2) (ih _ _ _ _ h)
        · rw [if_neg h1] at h
          exact Ac3Steps.noRevision xi xj rest csp b cspF
            (Bool.of_not_eq_true h1) (ih _ _ _ _ h)
  have bwd : ∀ (q : List (Var × Var)) (csp : AcCSP Var) (b : Bool) (cspF : AcCSP Var),
      Ac3Steps q csp b cspF → ∃ fuel, ac3Loop fuel q csp = (some b, cspF) := by
    intro q csp b cspF h
    induction h with
    | done csp => exact ⟨1, rfl⟩
    | wipe xi xj rest csp h1 h2 =>
      refine ⟨1, ?_⟩
      simp only [ac3Loop]
      rw [if_pos h1, if_pos h2]
    | revised xi xj rest csp b cspF h1 h2 _ ih =>
      obtain ⟨f, hf⟩ := ih
      refine ⟨f + 1, ?_⟩
      simp only [ac3Loop]
      rw [if_pos h1, if_neg (by simp [h2]), hf]
    | noRevision xi xj rest csp b cspF h1 _ ih =>
      obtain ⟨f, hf⟩ := ih
      refine ⟨f + 1, ?_⟩
      simp only [ac3Loop]
      rw [if_neg (by simp [h1]), hf]
  constructor
  · intro q csp b cspF
    constructor
    · intro hex
      obtain ⟨fuel, hf⟩ := hex
      exact fwd fuel q csp b cspF hf
    · exact bwd q csp b cspF
  · intro xi xj rest csp fuel h1 h2
    simp only [ac3Loop]
    rw [if_pos h1, if_pos h2]

/-- Witness for `ac3_run_characterization`: applied to the concrete instance
`cspWipe`, whose first arc-revision empties the domain of `A`, the loop stops
at once with `False`. -/
theorem ac3_run_characterization_witness :
    ac3Loop 3 [(V3.A, V3.B)] cspWipe = (some false, (revise cspWipe V3.A V3.B).2) :=
  ac3_run_characterization.2 V3.A V3.B [] cspWipe 2 (by decide) (by decide)

/-- **C3** The claim is refuted on its re-enqueue half: when the removal
empties the domain of `xi`, `ac3` returns `False` at once and the arcs
`(xk, xi)` are never pushed.  On `cspWipe`, revising `(A, B)` removes the
last value of `A`; the claim's predicted continuation (processing the
re-enqueued `(C, A)`) would additionally wipe the domain of `C`, so the two
runs differ — the actual run leaves `C = [1]`, the predicted one `C = []`. -/
theorem revise_reenqueue_refuted :
    (revise cspWipe V3.A V3.B).1 = true ∧
    ((revise cspWipe V3.A V3.B).2.domains V3.A).isEmpty = true ∧
    ¬ (ac3Loop 2 [(V3.A, V3.B)] cspWipe
        = ac3Loop 1 ([] ++ enqueueArcs cspWipe V3.A V3.B) (revise cspWipe V3.A V3.B).2) := by
  refine ⟨by decide, by decide, ?_⟩
  intro h
  have h2 := congrArg (fun r => r.2.domains V3.C) h
  revert h2
  decide

/-- **C3 (amended)** `revise(csp, xi, xj)` (for an arc between two distinct
variables) removes from the domain of `xi` exactly the values `x` with no
support `y` in the domain of `xj` (the survivors keep their relative order:
the new domain is a `filter` of the old), leaves every other domain
untouched, and returns `true` iff at least one value was removed; and on a
removal `ac3` re-enqueues `(xk, xi)` for every neighbor `xk ≠ xj` of `xi`
**provided the revised domain is nonempty** — a removal that empties the
domain instead returns `False` immediately. -/
theorem revise_exact_and_reenqueue (csp : AcCSP Var) (xi xj : Var) (hne : xi ≠ xj) :
    ((revise csp xi xj).2.domains xi
        = (csp.domains xi).filter (fun x => supported csp.constraints csp.domains xi x xj)
      ∧ (∀ w, w ≠ xi → (revise csp xi xj).2.domains w = csp.domains w)
      ∧ (revise csp xi xj).1
          = (csp.domains xi).any (fun x => !supported csp.constraints csp.domains xi x xj))
    ∧ (∀ (rest : List (Var × Var)) (fuel : Nat), (revise csp xi xj).1 = true →
        (((revise csp xi xj).2.domains xi).isEmpty = false →
          ac3Loop (fuel + 1) ((xi, xj) :: rest) csp
            = ac3Loop fuel (rest ++ enqueueArcs csp xi xj) (revise csp xi xj).2)
        ∧ (((revise csp xi xj).2.domains xi).isEmpty = true →
          ac3Loop (fuel + 1) ((xi, xj) :: rest) csp = (some false, (revise csp xi xj).2))) := by
  refine ⟨⟨revise_domains_eq_filter csp xi xj hne,
          fun w hw => revise_domains_ne csp xi xj w hw,
          revise_flag_any csp xi xj⟩, ?_⟩
  intro rest fuel h1
  constructor
  · intro h2
    simp only [ac3Loop]
    rw [if_pos h1, if_neg (by simp [h2])]
  · intro h2
    simp only [ac3Loop]
    rw [if_pos h1, if_pos h2]

/-- Witness for `revise_exact_and_reenqueue` at the module instance `cspAc`,
arc `(A, B)`: the value `3` is removed (no `y ∈ B` has `3 + 1 = y`), the
surviving domain is `[1, 2]`, and the loop continues on the re-enqueued
arcs. -/
theorem revise_exact_and_reenqueue_witness :
    (revise cspAc V3.A V3.B).2.domains V3.A = [1, 2] ∧
    (revise cspAc V3.A V3.B).1 = true ∧
    ac3Loop 10 [(V3.A, V3.B)] cspAc
      = ac3Loop 9 ([] ++ enqueueArcs cspAc V3.A V3.B) (revise cspAc V3.A V3.B).2 := by
  have h := revise_exact_and_reenqueue cspAc V3.A V3.B (by decide)
  refine ⟨h.1.1.trans (by decide), h.1.2.2.trans (by decide), ?_⟩
  exact (h.2 [] 9 (h.1.2.2.trans (by decide))).1 (by decide)

/-! ### The MRV selection heuristic -/

theorem foldl_minBy_first (f : Var → Nat) :
    ∀ (vs : List Var) (v : Var) (m : Var),
      vs.foldl (fun best w => if f w < f best then w else best) v = m →
      m ∈ v :: vs ∧ (∀ w ∈ v :: vs, f m ≤ f w) ∧
      ∃ l₁ l₂, v :: vs = l₁ ++ m :: l₂ ∧ ∀ w ∈ l₁, f m < f w := by
  intro vs
  induction vs with
  | nil =>
    intro v m hm
    cases hm
    refine ⟨List.mem_cons_self _ _, ?_, [], [], rfl, by simp⟩
    intro w hw
    rcases List.mem_singleton.mp hw with rfl
    exact Nat.le_refl _
  | cons w ws ih =>
    intro v m hm
    rw [List.foldl_cons] at hm
    obtain ⟨hmem, hmin, l₁, l₂, hdec, hlt⟩ :=
      ih (if f w < f v then w else v) m hm
    by_cases hfw : f w < f v
    · rw [if_pos hfw] at hmem hmin hdec
      refine ⟨?_, ?_, ?_⟩
      · rcases List.mem_cons.mp hmem with rfl | hmw
        · exact List.mem_cons_of_mem _ (List.mem_cons_self _ _)
        · exact List.mem_cons_of_mem _ (List.mem_cons_of_mem _ hmw)
      · intro u hu
        rcases List.mem_cons.mp hu with rfl | hu2
        · exact Nat.le_of_lt (Nat.lt_of_le_of_lt (hmin w (List.mem_cons_self _ _)) hfw)
        · exact hmin u hu2
      · rcases l₁ with _ | ⟨h1, t⟩
        · obtain ⟨rfl, rfl⟩ : w = m ∧ ws = l₂ := by
            have := hdec
            simp only [List.nil_append] at this
            exact ⟨(List.cons.injEq _ _ _ _ ▸ this).1, (List.cons.injEq _ _ _ _ ▸ this).2⟩
          refine ⟨[v], ws, rfl, ?_⟩
          intro u hu
          rcases List.mem_singleton.mp hu with rfl
          exact hfw
        · have hdec2 : w = h1 ∧ ws = t ++ m :: l₂ := by
            simpa using hdec
          obtain ⟨rfl, hws⟩ := hdec2
          refine ⟨v :: w :: t, l₂, by rw [hws]; rfl, ?_⟩
          intro u hu
          rcases List.mem_cons.mp hu with rfl | hu2
          · exact Nat.lt_trans (hlt w (List.mem_cons_self _ _)) hfw
          · rcases List.mem_cons.mp hu2 with rfl | hu3
            · exact hlt u (List.mem_cons_self _ _)
            · exact hlt u (List.mem_cons_of_mem _ hu3)
    · rw [if_neg hfw] at hmem hmin hdec
      have hvw : f v ≤ f w := Nat.le_of_not_lt hfw
      refine ⟨?_, ?_, ?_⟩
      · rcases List.mem_cons.mp hmem with rfl | hmw
        · exact List.mem_cons_self _ _
        · exact List.mem_cons_of_mem _ (List.mem_cons_of_mem _ hmw)
      · intro u hu
        rcases List.mem_cons.mp hu with rfl | hu2
        · exact hmin u (List.mem_cons_self _ _)
        · rcases List.mem_cons.mp hu2 with rfl | hu3
          · exact Nat.le_trans (hmin v (List.mem_cons_self _ _)) hvw
          · exact hmin u (List.mem_cons_of_mem _ hu3)
      · rcases l₁ with _ | ⟨h1, t⟩
        · obtain ⟨rfl, rfl⟩ : v = m ∧ ws = l₂ := by
            have := hdec
            simp only [List.nil_append] at this
            exact ⟨(List.cons.injEq _ _ _ _ ▸ this).1, (List.cons.injEq _ _ _ _ ▸ this).2⟩
          exact ⟨[], w :: ws, rfl, by simp⟩
        · have hdec2 : v = h1 ∧ ws = t ++ m :: l₂ := by
            simpa using hdec
          obtain ⟨rfl, hws⟩ := hdec2
          refine ⟨v :: w :: t, l₂, by rw [hws]; rfl, ?_⟩
          intro u hu
          rcases List.mem_cons.mp hu with rfl | hu2
          · exact hlt u (List.mem_cons_self _ _)
          · rcases List.mem_cons.mp hu2 with rfl | hu3
            · exact Nat.lt_of_lt_of_le (hlt v (List.mem_cons_self _ _)) hvw
            · exact hlt u (List.mem_cons_of_mem _ hu3)

/-- **C7** MRV selection: whenever at least one variable is unassigned,
`select_unassigned_variable` returns an unassigned variable whose current
domain is of minimal length among the unassigned ones, and it is the first
such variable in the iteration order of `csp.variables` (every unassigned
variable listed before it has a strictly longer domain).  Python's
`min(unassigned, key=...)` keeps the first minimizer because it replaces the
running best only on a strict decrease. -/
theorem select_unassigned_mrv (a : List (Var × Nat)) (d : Var → List Nat)
    (csp : BtCSP Var)
    (h : csp.vars.filter (fun v => (alookup a v).isNone) ≠ []) :
    ∃ m, select_unassigned_variable a d csp = some m ∧
      m ∈ csp.vars.filter (fun v => (alookup a v).isNone) ∧
      (∀ w ∈ csp.vars.filter (fun v => (alookup a v).isNone),
        (d m).length ≤ (d w).length) ∧
      ∃ l₁ l₂, csp.vars.filter (fun v => (alookup a v).isNone) = l₁ ++ m :: l₂ ∧
        ∀ w ∈ l₁, (d m).length < (d w).length := by
  rcases hu : csp.vars.filter (fun v => (alookup a v).isNone) with _ | ⟨v₀, vs⟩
  · exact absurd hu h
  · have hsel : select_unassigned_variable a d csp = minByDomLen d (v₀ :: vs) := by
      show minByDomLen d (csp.vars.filter (fun v => (alookup a v).isNone)) = _
      rw [hu]
    obtain ⟨hmem, hmin, l₁, l₂, hdec, hlt⟩ :=
      foldl_minBy_first (fun v => (d v).length) vs v₀
        (vs.foldl (fun best w => if (d w).length < (d best).length then w else best) v₀) rfl
    exact ⟨_, hsel, hmem, hmin, l₁, l₂, hdec, hlt⟩

open V3 in
/-- Witness for `select_unassigned_mrv`: with nothing assigned and domains
`A = [1, 2]`, `B = [1]`, `C = [1, 2, 3]` on the triangle, MRV must select
`B` (the unique smallest domain). -/
theorem select_unassigned_mrv_witness :
    ∃ m, select_unassigned_variable [] (mkDoms [1, 2] [1] [1, 2, 3]) cspTri = some m ∧
      m ∈ cspTri.vars.filter (fun v => (alookup [] v).isNone) ∧
      (∀ w ∈ cspTri.vars.filter (fun v => (alookup [] v).isNone),
        ((mkDoms [1, 2] [1] [1, 2, 3]) m).length ≤ ((mkDoms [1, 2] [1] [1, 2, 3]) w).length) ∧
      ∃ l₁ l₂, cspTri.vars.filter (fun v => (alookup [] v).isNone) = l₁ ++ m :: l₂ ∧
        ∀ w ∈ l₁, ((mkDoms [1, 2] [1] [1, 2, 3]) m).length < ((mkDoms [1, 2] [1] [1, 2, 3]) w).length :=
  select_unassigned_mrv [] (mkDoms [1, 2] [1] [1, 2, 3]) cspTri (by decide)

/-! ### Assignment dictionary lemmas -/

theorem alookup_eq_none_iff (a : List (Var × Nat)) (v : Var) :
    alookup a v = none ↔ v ∉ a.map Prod.fst := by
  induction a with
  | nil => simp [alookup]
  | cons p rest ih =>
    rcases p with ⟨k, x⟩
    simp only [alookup, List.map_cons, List.mem_cons]
    by_cases h : k = v
    · subst h
      simp
    · rw [if_neg h, ih]
      constructor
      · intro hnot hor
        rcases hor with he | hmem
        · exact h he.symm
        · exact hnot hmem
      · intro hnot hmem
        exact hnot (Or.inr hmem)

theorem alookup_isSome_of_mem (a : List (Var × Nat)) (v : Var)
    (h : v ∈ a.map Prod.fst) : ∃ x, alookup a v = some x := by
  cases halo : alookup a v with
  | none => exact absurd h ((alookup_eq_none_iff a v).mp halo)
  | some x => exact ⟨x, rfl⟩

theorem alookup_append_of_none (a b : List (Var × Nat)) (v : Var)
    (h : alookup a v = none) : alookup (a ++ b) v = alookup b v := by
  induction a with
  | nil => rfl
  | cons p rest ih =>
    rcases p with ⟨k, x⟩
    simp only [alookup, List.cons_append] at h ⊢
    by_cases hk : k = v
    · rw [if_pos hk] at h; exact absurd h (by simp)
    · rw [if_neg hk] at h ⊢
      exact ih h

theorem alookup_append_of_some (a b : List (Var × Nat)) (v : Var) (x : Nat)
    (h : alookup a v = some x) : alookup (a ++ b) v = some x := by
  induction a with
  | nil => exact absurd h (by simp [alookup])
  | cons p rest ih =>
    rcases p with ⟨k, y⟩
    simp only [alookup, List.cons_append] at h ⊢
    by_cases hk : k = v
    · rw [if_pos hk] at h ⊢; exact h
    · rw [if_neg hk] at h ⊢
      exact ih h

theorem btNeighbors_mem_right (csp : BtCSP Var) (p : Var × Var)
    (hp : p ∈ csp.constraints) : p.2 ∈ btNeighbors csp p.1 := by
  simp only [btNeighbors, List.mem_flatMap]
  refine ⟨p, hp, ?_⟩
  simp

theorem btNeighbors_mem_left (csp : BtCSP Var) (p : Var × Var)
    (hp : p ∈ csp.constraints) : p.1 ∈ btNeighbors csp p.2 := by
  simp only [btNeighbors, List.mem_flatMap]
  refine ⟨p, hp, ?_⟩
  simp

theorem is_consistent_ne (nb : Var → List Var) (var : Var) (value : Nat)
    (a : List (Var × Nat)) (h : is_consistent nb var value a = true) :
    ∀ n ∈ nb var, alookup a n ≠ some value := by
  intro n hn he
  have h2 := (List.all_eq_true.mp h) n hn
  rw [he] at h2
  simp at h2

/-! ### Soundness of the backtracking search (claim C6) -/

theorem tryValues_sound (csp : BtCSP Var)
    (hpairs : ∀ p ∈ csp.constraints, p.1 ≠ p.2)
    (bt : List (Var × Nat) → (Var → List Nat) →
      Option (Option (List (Var × Nat))) × (Var → List Nat))
    (P : List (Var × Nat) → Prop)
    (hbt : ∀ (a : List (Var × Nat)) (d : Var → List Nat) (r : List (Var × Nat)),
      (a.map Prod.fst).Nodup →
      (∀ v ∈ a.map Prod.fst, v ∈ csp.vars) →
      (∀ p ∈ csp.constraints, ∀ x y,
        alookup a p.1 = some x → alookup a p.2 = some y → x ≠ y) →
      (bt a d).1 = some (some r) → P r)
    (var : Var) (hvarmem : var ∈ csp.vars)
    (a : List (Var × Nat))
    (hvarnew : alookup a var = none)
    (hknd : (a.map Prod.fst).Nodup)
    (hksub : ∀ v ∈ a.map Prod.fst, v ∈ csp.vars)
    (hcons : ∀ p ∈ csp.constraints, ∀ x y,
      alookup a p.1 = some x → alookup a p.2 = some y → x ≠ y) :
    ∀ (vals : List Nat) (d : Var → List Nat) (r : List (Var × Nat)),
      (tryValues bt csp var a vals d).1 = some (some r) → P r := by
  intro vals
  induction vals with
  | nil =>
    intro d r hres
    exact absurd hres (by simp [tryValues])
  | cons v vs ihv =>
    intro d r hres
    simp only [tryValues] at hres
    by_cases hic : is_consistent (btNeighbors csp) var v a = true
    · rw [if_pos hic] at hres
      have hvarkey : var ∉ a.map Prod.fst := (alookup_eq_none_iff a var).mp hvarnew
      have hknd2 : ((a ++ [(var, v)]).map Prod.fst).Nodup := by
        simp only [List.map_append, List.map_cons, List.map_nil]
        exact List.Nodup.append hknd (List.nodup_singleton var)
          (by intro u hu hu2; rcases List.mem_singleton.mp hu2 with rfl; exact hvarkey hu)
      have hksub2 : ∀ w ∈ (a ++ [(var, v)]).map Prod.fst, w ∈ csp.vars := by
        intro w hw
        simp only [List.map_append, List.map_cons, List.map_nil, List.mem_append,
          List.mem_singleton] at hw
        rcases hw with hw | rfl
        · exact hksub w hw
        · exact hvarmem
      have hcons2 : ∀ p ∈ csp.constraints, ∀ x y,
          alookup (a ++ [(var, v)]) p.1 = some x →
          alookup (a ++ [(var, v)]) p.2 = some y → x ≠ y := by
        intro p hp x y hx hy
        cases h1 : alookup a p.1 with
        | some x0 =>
          rw [alookup_append_of_some a _ _ _ h1] at hx
          cases Option.some.inj hx
          cases h2 : alookup a p.2 with
          | some y0 =>
            rw [alookup_append_of_some a _ _ _ h2] at hy
            cases Option.some.inj hy
            exact hcons p hp x y h1 h2
          | none =>
            rw [alookup_append_of_none a _ _ h2] at hy
            simp only [alookup] at hy
            by_cases hv2 : var = p.2
            · rw [if_pos hv2] at hy
              have hvy : v = y := Option.some.inj hy
              have hnb : p.1 ∈ btNeighbors csp var :=
                hv2 ▸ btNeighbors_mem_left csp p hp
              have hne2 := is_consistent_ne (btNeighbors csp) var v a hic p.1 hnb
              intro hxy
              exact hne2 (by rw [h1, hxy, hvy])
            · rw [if_neg hv2] at hy
              exact absurd hy (by simp)
        | none =>
          rw [alookup_append_of_none a _ _ h1] at hx
          simp only [alookup] at hx
          by_cases hv1 : var = p.1
          · rw [if_pos hv1] at hx
            have hvx : v = x := Option.some.inj hx
            cases h2 : alookup a p.2 with
            | some y0 =>
              rw [alookup_append_of_some a _ _ _ h2] at hy
              cases Option.some.inj hy
              have hnb : p.2 ∈ btNeighbors csp var :=
                hv1 ▸ btNeighbors_mem_right csp p hp
              have hne2 := is_consistent_ne (btNeighbors csp) var v a hic p.2 hnb
              intro hxy
              exact hne2 (by rw [h2, ← hxy, ← hvx])
            | none =>
              rw [alookup_append_of_none a _ _ h2] at hy
              simp only [alookup] at hy
              by_cases hv2 : var = p.2
              · exact absurd (hv1.symm.trans hv2) (hpairs p hp)
              · rw [if_neg hv2] at hy
                exact absurd hy (by simp)
          · rw [if_neg hv1] at hx
            exact absurd hx (by simp)
      cases hfc : (forward_checking (btNeighbors csp) var v (a ++ [(var, v)]) d).1 with
      | none =>
        simp only [hfc] at hres
        exact ihv _ r hres
      | some infs =>
        simp only [hfc] at hres
        rcases hbt2 : bt (a ++ [(var, v)])
            (forward_checking (btNeighbors csp) var v (a ++ [(var, v)]) d).2 with ⟨o, d2⟩
        rw [hbt2] at hres
        match o, hres with
        | some (some r0), hres =>
          have : r0 = r := by
            simpa using hres
          subst this
          exact hbt _ _ r0 hknd2 hksub2 hcons2 (by rw [hbt2])
        | some none, hres =>
          exact ihv _ r hres
        | none, hres =>
          exact absurd hres (by simp)
    · rw [if_neg hic] at hres
      exact ihv _ r hres

/-- **C6** `backtrack({}, csp)` never returns a partial or ambiguous result:
for a duplicate-free variable list and constraint pairs of distinct
variables inside the variable list, whenever the search returns an
assignment (rather than the failure value `None`), that assignment maps
every variable of the CSP to a value, and the two endpoints of every
constraint pair hold distinct values. -/
theorem backtrack_complete_consistent :
    ∀ (fuel : Nat) (csp : BtCSP Var), csp.vars.Nodup →
      (∀ p ∈ csp.constraints, p.1 ≠ p.2) →
      ∀ (a : List (Var × Nat)) (d : Var → List Nat) (r : List (Var × Nat)),
        (a.map Prod.fst).Nodup →
        (∀ v ∈ a.map Prod.fst, v ∈ csp.vars) →
        (∀ p ∈ csp.constraints, ∀ x y,
          alookup a p.1 = some x → alookup a p.2 = some y → x ≠ y) →
        (backtrackF fuel a d csp).1 = some (some r) →
        (∀ v ∈ csp.vars, ∃ x, alookup r v = some x) ∧
        (∀ p ∈ csp.constraints, ∀ x y,
          alookup r p.1 = some x → alookup r p.2 = some y → x ≠ y) := by
  intro fuel
  induction fuel with
  | zero =>
    intro csp _ _ a d r _ _ _ hres
    exact absurd hres (by simp [backtrackF])
  | succ n ih =>
    intro csp hvars hpairs a d r hknd hksub hcons hres
    simp only [backtrackF] at hres
    by_cases hlen : a.length = csp.vars.length
    · rw [if_pos hlen] at hres
      have har : a = r := by simpa using hres
      subst har
      refine ⟨?_, hcons⟩
      have hsub : List.Subperm (a.map Prod.fst) csp.vars :=
        List.subperm_of_subset hknd (fun x hx => hksub x hx)
      have hperm : (a.map Prod.fst).Perm csp.vars :=
        hsub.perm_of_length_le (by simp [hlen])
      intro v hv
      exact alookup_isSome_of_mem a v (hperm.mem_iff.mpr hv)
    · rw [if_neg hlen] at hres
      cases hselp : select_unassigned_variable a d csp with
      | none =>
        rw [hselp] at hres
        exact absurd hres (by simp)
      | some var =>
        rw [hselp] at hres
        have hfil : csp.vars.filter (fun v => (alookup a v).isNone) ≠ [] := by
          intro hnil
          rw [select_unassigned_variable, hnil] at hselp
          exact absurd hselp (by simp [minByDomLen])
        obtain ⟨m, hm, hmmem, _, _⟩ := select_unassigned_mrv a d csp hfil
        have hvm : var = m := Option.some.inj (hselp.symm.trans hm)
        subst hvm
        have hvarmem : var ∈ csp.vars := (List.mem_filter.mp hmmem).1
        have hvarnew : alookup a var = none := by
          have := (List.mem_filter.mp hmmem).2
          simpa [Option.isNone_iff_eq_none] using this
        exact tryValues_sound csp hpairs _ _
          (fun a2 d2 r2 hknd2 hksub2 hcons2 hres2 =>
            ih csp hvars hpairs a2 d2 r2 hknd2 hksub2 hcons2 hres2)
          var hvarmem a hvarnew hknd hksub hcons (d var) d r hres

open V3 in
/-- Witness for `backtrack_complete_consistent`: the run on the triangle with
domains `A = [1, 2]`, `B = [1]`, `C = [1, 2, 3]` returns the assignment
`[(B, 1), (A, 2), (C, 3)]`, which the theorem then shows total and
constraint-consistent. -/
theorem backtrack_complete_consistent_witness :
    (∀ v ∈ cspTri.vars, ∃ x, alookup [(B, 1), (A, 2), (C, 3)] v = some x) ∧
    (∀ p ∈ cspTri.constraints, ∀ x y,
      alookup [(B, 1), (A, 2), (C, 3)] p.1 = some x →
      alookup [(B, 1), (A, 2), (C, 3)] p.2 = some y → x ≠ y) :=
  backtrack_complete_consistent 4 cspTri (by decide) (by decide)
    [] (mkDoms [1, 2] [1] [1, 2, 3]) [(B, 1), (A, 2), (C, 3)]
    (by decide) (by decide)
    (by intro p hp x y hx hy; exact absurd hx (by simp [alookup]))
    (by decide)

/-! ### Termination of both solvers (claim C9) -/

theorem reviseAux_length_lt (pred : Var → Nat → Var → Nat → Bool) (xi xj : Var) :
    ∀ (xs : List Nat) (d : Var → List Nat), (∀ x ∈ xs, x ∈ d xi) →
      (reviseAux pred xi xj xs d false).1 = true →
      ((reviseAux pred xi xj xs d false).2 xi).length < (d xi).length := by
  intro xs
  induction xs with
  | nil => intro d _ hflag; exact absurd hflag (by simp [reviseAux])
  | cons x xs ih =>
    intro d hsub hflag
    simp only [reviseAux] at hflag ⊢
    by_cases h : supported pred d xi x xj = true
    · rw [if_pos h] at hflag ⊢
      exact ih d (fun y hy => hsub y (List.mem_cons_of_mem _ hy)) hflag
    · rw [if_neg h]
      have hx : x ∈ d xi := hsub x (List.mem_cons_self _ _)
      have hsubl := reviseAux_sublist pred xi xj xs (updD d xi ((d xi).erase x)) true xi
      have hupd : (updD d xi ((d xi).erase x)) xi = (d xi).erase x := by simp [updD]
      rw [hupd] at hsubl
      have hle := hsubl.length_le
      have herase : ((d xi).erase x).length = (d xi).length - 1 :=
        List.length_erase_of_mem hx
      have hpos : 0 < (d xi).length := List.length_pos_of_mem hx
      omega

theorem revise_length_lt (csp : AcCSP Var) (xi xj : Var)
    (hflag : (revise csp xi xj).1 = true) :
    ((revise csp xi xj).2.domains xi).length < (csp.domains xi).length :=
  reviseAux_length_lt csp.constraints xi xj (csp.domains xi) csp.domains
    (fun _ hx => hx) hflag

theorem mem_le_foldr_max (f : Var → Nat) :
    ∀ (l : List Var) (v : Var), v ∈ l → f v ≤ (l.map f).foldr max 0 := by
  intro l
  induction l with
  | nil => intro v hv; exact absurd hv (by simp)
  | cons u us ih =>
    intro v hv
    simp only [List.map_cons, List.foldr_cons]
    rcases List.mem_cons.mp hv with rfl | hv2
    · exact Nat.le_max_left _ _
    · exact Nat.le_trans (ih v hv2) (Nat.le_max_right _ _)

theorem sum_lt_sum_of_mem (f g : Var → Nat) :
    ∀ (l : List Var), (∀ v ∈ l, f v ≤ g v) → ∀ v₀ ∈ l, f v₀ < g v₀ →
      ((l.map f).sum < (l.map g).sum) := by
  intro l
  induction l with
  | nil => intro _ v₀ hv₀; exact absurd hv₀ (by simp)
  | cons u us ih =>
    intro hle v₀ hv₀ hlt
    simp only [List.map_cons, List.sum_cons]
    rcases List.mem_cons.mp hv₀ with rfl | hv₂
    · have hrest : ((us.map f).sum ≤ (us.map g).sum) :=
        List.sum_le_sum (fun v hv => hle v (List.mem_cons_of_mem _ hv))
      omega
    · have hhead : f u ≤ g u := hle u (List.mem_cons_self _ _)
      have hrest := ih (fun v hv => hle v (List.mem_cons_of_mem _ hv)) v₀ hv₂ hlt
      omega

theorem revise_domSum_lt (csp : AcCSP Var) (xi xj : Var) (hxi : xi ∈ csp.vars)
    (hflag : (revise csp xi xj).1 = true) :
    domSum (revise csp xi xj).2 < domSum csp := by
  show ((csp.vars.map (fun v => ((revise csp xi xj).2.domains v).length)).sum
      < (csp.vars.map (fun v => (csp.domains v).length)).sum)
  exact sum_lt_sum_of_mem _ _ csp.vars
    (fun v _ => (revise_domains_sublist csp xi xj v).length_le)
    xi hxi (revise_length_lt csp xi xj hflag)

theorem enqueueArcs_length_le (csp : AcCSP Var) (xi xj : Var) (hxi : xi ∈ csp.vars) :
    (enqueueArcs csp xi xj).length ≤ nbBound csp := by
  show (((csp.neighbors xi).filter (fun xk => xk ≠ xj)).map (fun xk => (xk, xi))).length ≤ _
  rw [List.length_map]
  exact Nat.le_trans (List.length_filter_le _ _)
    (mem_le_foldr_max (fun v => (csp.neighbors v).length) csp.vars xi hxi)

theorem ac3Loop_terminates :
    ∀ (n : Nat) (q : List (Var × Var)) (csp : AcCSP Var),
      (∀ v ∈ csp.vars, ∀ w ∈ csp.neighbors v, w ∈ csp.vars) →
      (∀ p ∈ q, p.1 ∈ csp.vars) →
      (nbBound csp + 1) * domSum csp + q.length < n →
      (ac3Loop n q csp).1.isSome = true := by
  intro n
  induction n with
  | zero => intro q csp _ _ h; exact absurd h (by omega)
  | succ n ih =>
    intro q csp hclosed hq hm
    rcases q with _ | ⟨⟨xi, xj⟩, rest⟩
    · simp [ac3Loop]
    · have hxi : xi ∈ csp.vars := hq (xi, xj) (List.mem_cons_self _ _)
      simp only [ac3Loop]
      by_cases h1 : (revise csp xi xj).1 = true
      · rw [if_pos h1]
        by_cases h2 : ((revise csp xi xj).2.domains xi).isEmpty = true
        · rw [if_pos h2]; simp
        · rw [if_neg h2]
          apply ih
          · exact hclosed
          · intro p hp
            rcases List.mem_append.mp hp with hp1 | hp2
            · exact hq p (List.mem_cons_of_mem _ hp1)
            · show p.1 ∈ csp.vars
              obtain ⟨xk, hxk, rfl⟩ := List.mem_map.mp hp2
              exact hclosed xi hxi xk (List.mem_filter.mp hxk).1
          · have hS : domSum (revise csp xi xj).2 + 1 ≤ domSum csp :=
              revise_domSum_lt csp xi xj hxi h1
            have hB : nbBound (revise csp xi xj).2 = nbBound csp := rfl
            have hE : (enqueueArcs csp xi xj).length ≤ nbBound csp :=
              enqueueArcs_length_le csp xi xj hxi
            have hmul : (nbBound csp + 1) * (domSum (revise csp xi xj).2 + 1)
                ≤ (nbBound csp + 1) * domSum csp :=
              Nat.mul_le_mul_left _ hS
            rw [Nat.mul_add, Nat.mul_one] at hmul
            rw [hB, List.length_append]
            simp only [List.length_cons] at hm
            omega
      · rw [if_neg h1]
        rw [revise_eq_self csp xi xj (Bool.of_not_eq_true h1)]
        apply ih _ _ hclosed (fun p hp => hq p (List.mem_cons_of_mem _ hp))
        simp only [List.length_cons] at hm
        omega

theorem keys_snoc_nodup (a : List (Var × Nat)) (var : Var) (v : Nat)
    (h : (a.map Prod.fst).Nodup) (hnew : var ∉ a.map Prod.fst) :
    ((a ++ [(var, v)]).map Prod.fst).Nodup := by
  simp only [List.map_append, List.map_cons, List.map_nil]
  exact List.Nodup.append h (List.nodup_singleton var)
    (by intro u hu hu2; rcases List.mem_singleton.mp hu2 with rfl; exact hnew hu)

theorem keys_snoc_sub (csp : BtCSP Var) (a : List (Var × Nat)) (var : Var) (v : Nat)
    (h : ∀ w ∈ a.map Prod.fst, w ∈ csp.vars) (hv : var ∈ csp.vars) :
    ∀ w ∈ (a ++ [(var, v)]).map Prod.fst, w ∈ csp.vars := by
  intro w hw
  simp only [List.map_append, List.map_cons, List.map_nil, List.mem_append,
    List.mem_singleton] at hw
  rcases hw with hw | rfl
  · exact h w hw
  · exact hv

theorem backtrackF_terminates (csp : BtCSP Var) (hvars : csp.vars.Nodup) :
    ∀ (fuel : Nat) (a : List (Var × Nat)) (d : Var → List Nat),
      (a.map Prod.fst).Nodup → (∀ v ∈ a.map Prod.fst, v ∈ csp.vars) →
      csp.vars.length - a.length < fuel →
      (backtrackF fuel a d csp).1.isSome = true := by
  intro fuel
  induction fuel with
  | zero => intro a d _ _ h; exact absurd h (by omega)
  | succ n ih =>
    intro a d hknd hksub hlt
    simp only [backtrackF]
    by_cases hlen : a.length = csp.vars.length
    · rw [if_pos hlen]; simp
    · rw [if_neg hlen]
      have halen : a.length < csp.vars.length := by
        have hle := (List.subperm_of_subset hknd (fun x hx => hksub x hx)).length_le
        rw [List.length_map] at hle
        omega
      have hfil : csp.vars.filter (fun v => (alookup a v).isNone) ≠ [] := by
        intro hnil
        have hall := List.filter_eq_nil_iff.mp hnil
        have hsubv : ∀ v ∈ csp.vars, v ∈ a.map Prod.fst := by
          intro v hv
          have h2 := hall v hv
          by_cases hmem : v ∈ a.map Prod.fst
          · exact hmem
          · exact absurd (by simp [(alookup_eq_none_iff a v).mpr hmem]) h2
        have hle := (List.subperm_of_subset hvars hsubv).length_le
        rw [List.length_map] at hle
        omega
      obtain ⟨m, hm, hmmem, _, _⟩ := select_unassigned_mrv a d csp hfil
      rw [hm]
      have hvarmem : m ∈ csp.vars := (List.mem_filter.mp hmmem).1
      have hvarnew : alookup a m = none := by
        have := (List.mem_filter.mp hmmem).2
        simpa [Option.isNone_iff_eq_none] using this
      have hvarkey : m ∉ a.map Prod.fst := (alookup_eq_none_iff a m).mp hvarnew
      have inner : ∀ (vals : List Nat) (d' : Var → List Nat),
          (tryValues (fun a' d'' => backtrackF n a' d'' csp) csp m a vals d').1.isSome
            = true := by
        intro vals
        induction vals with
        | nil => intro d'; simp [tryValues]
        | cons v vs ihv =>
          intro d'
          simp only [tryValues]
          by_cases hic : is_consistent (btNeighbors csp) m v a = true
          · rw [if_pos hic]
            cases hfc : (forward_checking (btNeighbors csp) m v (a ++ [(m, v)]) d').1 with
            | none =>
              simp only [hfc]
              exact ihv _
            | some infs =>
              simp only [hfc]
              have hrec := ih (a ++ [(m, v)])
                (forward_checking (btNeighbors csp) m v (a ++ [(m, v)]) d').2
                (keys_snoc_nodup a m v hknd hvarkey)
                (keys_snoc_sub csp a m v hksub hvarmem)
                (by simp only [List.length_append, List.length_cons, List.length_nil]; omega)
              rcases hres2 : backtrackF n (a ++ [(m, v)])
                  (forward_checking (btNeighbors csp) m v (a ++ [(m, v)]) d').2 csp
                with ⟨o, d2⟩
              rw [hres2] at hrec
              match o, hrec with
              | some (some r), _ => simp
              | some none, _ => exact ihv _
              | none, hrec => exact absurd hrec (by simp)
          · rw [if_neg hic]
            exact ihv _
      exact inner (d m) d

/-- **C9** Both solvers terminate on every finite CSP.  For `ac3`, whose
neighbor lists stay inside the variable list, some finite fuel makes the
fuel-indexed worklist loop return (the loop performs only finitely many arc
revisions: `(nbBound + 1) * domSum + |queue|` strictly decreases).  For
`backtrack` on a duplicate-free variable list, fuel `|variables| + 1`
already suffices for the run from the empty assignment — each recursive call
assigns one more variable, so the recursion depth never exceeds the number
of variables. -/
theorem solvers_terminate :
    (∀ csp : AcCSP Var, (∀ v ∈ csp.vars, ∀ w ∈ csp.neighbors v, w ∈ csp.vars) →
      ∃ fuel, (ac3 fuel csp).1.isSome = true) ∧
    (∀ (csp : BtCSP Var) (d : Var → List Nat), csp.vars.Nodup →
      (backtrackF (csp.vars.length + 1) [] d csp).1.isSome = true) := by
  constructor
  · intro csp hclosed
    refine ⟨(nbBound csp + 1) * domSum csp + (initQueue csp).length + 1, ?_⟩
    apply ac3Loop_terminates _ _ _ hclosed
    · intro p hp
      obtain ⟨xi, hxi, hp2⟩ := List.mem_flatMap.mp hp
      obtain ⟨xj, _, rfl⟩ := List.mem_map.mp hp2
      exact hxi
    · omega
  · intro csp d hvars
    apply backtrackF_terminates csp hvars _ [] d (by simp) (by simp)
    simp

open V3 in
/-- Witness for `solvers_terminate`: the `ac3` run on the module instance and
a `backtrack` run on the triangle both return. -/
theorem solvers_terminate_witness :
    (∃ fuel, (ac3 fuel cspAc).1.isSome = true) ∧
    (backtrackF (cspTri.vars.length + 1) [] (mkDoms [1] [1, 2] [1]) cspTri).1.isSome
      = true :=
  ⟨solvers_terminate.1 cspAc (by decide),
   solvers_terminate.2 cspTri (mkDoms [1] [1, 2] [1]) (by decide)⟩

/-! ### AC-3 idempotence (claim C8) -/

theorem revise_flag_false_supported (csp : AcCSP Var) (xi xj : Var)
    (h : (revise csp xi xj).1 = false) :
    ∀ x ∈ csp.domains xi, supported csp.constraints csp.domains xi x xj = true := by
  rw [revise_flag_any] at h
  intro x hx
  have h2 := List.any_eq_false.mp h x hx
  simp only [Bool.not_eq_true', Bool.not_eq_false] at h2
  exact h2

theorem revise_makes_consistent (csp : AcCSP Var) (xi xj : Var) (hne : xi ≠ xj) :
    ∀ x ∈ (revise csp xi xj).2.domains xi,
      supported csp.constraints ((revise csp xi xj).2.domains) xi x xj = true := by
  intro x hx
  rw [revise_domains_eq_filter csp xi xj hne] at hx
  have hsup := (List.mem_filter.mp hx).2
  show ((revise csp xi xj).2.domains xj).any (fun y => csp.constraints xi x xj y) = true
  rw [revise_domains_ne csp xi xj xj (fun h => hne h.symm)]
  exact hsup

theorem revise_preserves_reverse_arc (csp : AcCSP Var) (xi xj : Var) (hne : xi ≠ xj)
    (hsym : ∀ (a : Var) (x : Nat) (b : Var) (y : Nat),
      csp.constraints a x b y = csp.constraints b y a x)
    (hcons : ∀ x ∈ csp.domains xj, supported csp.constraints csp.domains xj x xi = true) :
    ∀ x ∈ (revise csp xi xj).2.domains xj,
      supported csp.constraints ((revise csp xi xj).2.domains) xj x xi = true := by
  intro x hx
  have hxj : (revise csp xi xj).2.domains xj = csp.domains xj :=
    revise_domains_ne csp xi xj xj (fun h => hne h.symm)
  rw [hxj] at hx
  have hsupp := hcons x hx
  obtain ⟨y, hy, hpredxy⟩ := List.any_eq_true.mp hsupp
  have hysup : supported csp.constraints csp.domains xi y xj = true :=
    List.any_eq_true.mpr ⟨x, hx, by rw [hsym xi y xj x]; exact hpredxy⟩
  show ((revise csp xi xj).2.domains xi).any (fun y => csp.constraints xj x xi y) = true
  apply List.any_eq_true.mpr
  refine ⟨y, ?_, hpredxy⟩
  rw [revise_domains_eq_filter csp xi xj hne]
  exact List.mem_filter.mpr ⟨hy, hysup⟩

theorem ac3Loop_true_consistent :
    ∀ (fuel : Nat) (q : List (Var × Var)) (csp cspF : AcCSP Var),
      (∀ (a : Var) (x : Nat) (b : Var) (y : Nat),
        csp.constraints a x b y = csp.constraints b y a x) →
      (∀ u ∈ csp.vars, ∀ w ∈ csp.neighbors u, w ∈ csp.vars) →
      (∀ u ∈ csp.vars, ∀ w ∈ csp.vars, u ∈ csp.neighbors w → w ∈ csp.neighbors u) →
      (∀ u ∈ csp.vars, u ∉ csp.neighbors u) →
      (∀ p ∈ q, p.1 ∈ csp.vars ∧ p.2 ∈ csp.neighbors p.1) →
      (∀ a ∈ csp.vars, ∀ b ∈ csp.neighbors a, ((a, b) ∈ q ∨
        ∀ x ∈ csp.domains a, supported csp.constraints csp.domains a x b = true)) →
      ac3Loop fuel q csp = (some true, cspF) →
      ∀ a ∈ csp.vars, ∀ b ∈ csp.neighbors a,
        ∀ x ∈ cspF.domains a, supported csp.constraints cspF.domains a x b = true := by
  intro fuel
  induction fuel with
  | zero =>
    intro q csp cspF _ _ _ _ _ _ hrun
    exact absurd (congrArg Prod.fst hrun) (by simp [ac3Loop])
  | succ n ih =>
    intro q csp cspF hsym hclosed hnbsym hirr hq hinv hrun
    rcases q with _ | ⟨⟨xi, xj⟩, rest⟩
    · have hF : csp = cspF := congrArg Prod.snd hrun
      subst hF
      intro a ha b hb x hx
      rcases hinv a ha b hb with habs | hcons
      · exact absurd habs (by simp)
      · exact hcons x hx
    · have hxi : xi ∈ csp.vars := (hq (xi, xj) (List.mem_cons_self _ _)).1
      have hxj : xj ∈ csp.neighbors xi := (hq (xi, xj) (List.mem_cons_self _ _)).2
      have hne : xi ≠ xj := by
        intro he
        exact hirr xi hxi (he ▸ hxj)
      simp only [ac3Loop] at hrun
      by_cases h1 : (revise csp xi xj).1 = true
      · rw [if_pos h1] at hrun
        by_cases h2 : ((revise csp xi xj).2.domains xi).isEmpty = true
        · rw [if_pos h2] at hrun
          exact absurd (congrArg Prod.fst hrun) (by simp)
        · rw [if_neg h2] at hrun
          have hstep := ih (rest ++ enqueueArcs csp xi xj) (revise csp xi xj).2 cspF
            hsym hclosed hnbsym hirr
            (by
              intro p hp
              rcases List.mem_append.mp hp with hp1 | hp2
              · exact hq p (List.mem_cons_of_mem _ hp1)
              · obtain ⟨xk, hxk, rfl⟩ := List.mem_map.mp hp2
                have hxk2 : xk ∈ csp.neighbors xi := (List.mem_filter.mp hxk).1
                refine ⟨hclosed xi hxi xk hxk2, ?_⟩
                exact hnbsym xk (hclosed xi hxi xk hxk2) xi hxi hxk2)
            (by
              intro a ha b hb
              rcases hinv a ha b hb with hmem | hcons
              · rcases List.mem_cons.mp hmem with he | hrest
                · have ha2 : a = xi := congrArg Prod.fst he
                  have hb2 : b = xj := congrArg Prod.snd he
                  refine Or.inr ?_
                  rw [ha2, hb2]
                  exact revise_makes_consistent csp xi xj hne
                · exact Or.inl (List.mem_append.mpr (Or.inl hrest))
              · by_cases hbxi : b = xi
                · subst hbxi
                  by_cases haxj : a = xj
                  · subst haxj
                    exact Or.inr (revise_preserves_reverse_arc csp b a hne hsym hcons)
                  · refine Or.inl (List.mem_append.mpr (Or.inr ?_))
                    show (a, b) ∈ (((csp.neighbors b).filter
                      (fun xk => xk ≠ xj)).map (fun xk => (xk, b)))
                    apply List.mem_map.mpr
                    refine ⟨a, ?_, rfl⟩
                    apply List.mem_filter.mpr
                    exact ⟨hnbsym b hxi a ha hb, by simp [haxj]⟩
                · refine Or.inr ?_
                  intro x hx
                  have hbne : (revise csp xi xj).2.domains b = csp.domains b :=
                    revise_domains_ne csp xi xj b hbxi
                  show ((revise csp xi xj).2.domains b).any
                    (fun y => csp.constraints a x b y) = true
                  rw [hbne]
                  by_cases haxi : a = xi
                  · subst haxi
                    have hx2 : x ∈ csp.domains a :=
                      (revise_domains_sublist csp a xj a).mem hx
                    exact hcons x hx2
                  · have hane : (revise csp xi xj).2.domains a = csp.domains a :=
                      revise_domains_ne csp xi xj a haxi
                    rw [hane] at hx
                    exact hcons x hx)
            hrun
          exact hstep
      · rw [if_neg h1] at hrun
        rw [revise_eq_self csp xi xj (Bool.of_not_eq_true h1)] at hrun
        apply ih rest csp cspF hsym hclosed hnbsym hirr
          (fun p hp => hq p (List.mem_cons_of_mem _ hp))
          (by
            intro a ha b hb
            rcases hinv a ha b hb with hmem | hcons
            · rcases List.mem_cons.mp hmem with he | hrest
              · have ha2 : a = xi := congrArg Prod.fst he
                have hb2 : b = xj := congrArg Prod.snd he
                refine Or.inr ?_
                rw [ha2, hb2]
                exact revise_flag_false_supported csp xi xj (Bool.of_not_eq_true h1)
              · exact Or.inl hrest
            · exact Or.inr hcons)
          hrun

theorem ac3Loop_noop :
    ∀ (q : List (Var × Var)) (csp : AcCSP Var),
      (∀ p ∈ q, p.1 ∈ csp.vars ∧ p.2 ∈ csp.neighbors p.1) →
      (∀ a ∈ csp.vars, ∀ b ∈ csp.neighbors a,
        ∀ x ∈ csp.domains a, supported csp.constraints csp.domains a x b = true) →
      ∀ fuel, q.length < fuel → ac3Loop fuel q csp = (some true, csp) := by
  intro q
  induction q with
  | nil =>
    intro csp _ _ fuel hf
    obtain ⟨m, rfl⟩ : ∃ m, fuel = m + 1 := ⟨fuel - 1, by omega⟩
    rfl
  | cons p rest ih =>
    rcases p with ⟨xi, xj⟩
    intro csp hq hcons fuel hf
    obtain ⟨m, rfl⟩ : ∃ m, fuel = m + 1 := ⟨fuel - 1, by omega⟩
    have hxi : xi ∈ csp.vars := (hq (xi, xj) (List.mem_cons_self _ _)).1
    have hxj : xj ∈ csp.neighbors xi := (hq (xi, xj) (List.mem_cons_self _ _)).2
    have hflag : (revise csp xi xj).1 = false := by
      rw [revise_flag_any]
      apply List.any_eq_false.mpr
      intro x hx
      simp only [Bool.not_eq_true', Bool.not_eq_false]
      exact hcons xi hxi xj hxj x hx
    simp only [ac3Loop]
    rw [if_neg (by simp [hflag])]
    rw [revise_eq_self csp xi xj hflag]
    apply ih csp (fun p hp => hq p (List.mem_cons_of_mem _ hp)) hcons m
    simp only [List.length_cons] at hf
    omega

/-- **C8 (amended)** AC-3 idempotence holds on `True`-returning runs of
well-formed symmetric instances: if the constraint predicate is symmetric
(`pred(xi, x, xj, y) = pred(xj, y, xi, x)`), the neighbor relation over the
variable list is symmetric, irreflexive and closed (neighbor lists stay
inside the variable list), and `ac3` returns `true` producing the store
`csp₁`, then running `ac3` again on `csp₁` removes nothing — it returns
`true` with `csp₁` itself, within worklist-length-plus-one iterations. -/
theorem ac3_true_idempotent (csp : AcCSP Var) (fuel : Nat) (csp₁ : AcCSP Var)
    (hsym : ∀ (a : Var) (x : Nat) (b : Var) (y : Nat),
      csp.constraints a x b y = csp.constraints b y a x)
    (hclosed : ∀ u ∈ csp.vars, ∀ w ∈ csp.neighbors u, w ∈ csp.vars)
    (hnbsym : ∀ u ∈ csp.vars, ∀ w ∈ csp.vars,
      u ∈ csp.neighbors w → w ∈ csp.neighbors u)
    (hirr : ∀ u ∈ csp.vars, u ∉ csp.neighbors u)
    (hrun : ac3 fuel csp = (some true, csp₁)) :
    ac3 ((initQueue csp₁).length + 1) csp₁ = (some true, csp₁) := by
  have hsnd : (ac3Loop fuel (initQueue csp) csp).2 = csp₁ := congrArg Prod.snd hrun
  have hv : csp₁.vars = csp.vars := by
    rw [← hsnd]; exact (ac3Loop_fields fuel (initQueue csp) csp).1
  have hn : csp₁.neighbors = csp.neighbors := by
    rw [← hsnd]; exact (ac3Loop_fields fuel (initQueue csp) csp).2.1
  have hc : csp₁.constraints = csp.constraints := by
    rw [← hsnd]; exact (ac3Loop_fields fuel (initQueue csp) csp).2.2
  have hcons : ∀ a ∈ csp.vars, ∀ b ∈ csp.neighbors a,
      ∀ x ∈ csp₁.domains a, supported csp.constraints csp₁.domains a x b = true := by
    apply ac3Loop_true_consistent fuel (initQueue csp) csp csp₁ hsym hclosed hnbsym hirr
    · intro p hp
      obtain ⟨xi, hxi, hp2⟩ := List.mem_flatMap.mp hp
      obtain ⟨xj, hxj, rfl⟩ := List.mem_map.mp hp2
      exact ⟨hxi, hxj⟩
    · intro a ha b hb
      refine Or.inl ?_
      apply List.mem_flatMap.mpr
      exact ⟨a, ha, List.mem_map.mpr ⟨b, hb, rfl⟩⟩
    · exact hrun
  show ac3Loop ((initQueue csp₁).length + 1) (initQueue csp₁) csp₁ = (some true, csp₁)
  apply ac3Loop_noop (initQueue csp₁) csp₁
  · intro p hp
    obtain ⟨xi, hxi, hp2⟩ := List.mem_flatMap.mp hp
    obtain ⟨xj, hxj, rfl⟩ := List.mem_map.mp hp2
    exact ⟨hxi, hxj⟩
  · intro a ha b hb x hx
    rw [hv] at ha
    rw [hn] at hb
    have := hcons a ha b hb x hx
    show (csp₁.domains b).any (fun y => csp₁.constraints a x b y) = true
    rw [hc]
    exact this
  · omega

open V3 in
/-- **C8** The claim fails as stated: on `cspHalt` (domains `A = [1]`,
`B = [2]`, equality constraint between mutual neighbors `A` and `B`) the
first `ac3` run empties `A`, returns `False` mid-worklist and leaves
`B = [2]`; the second run then prunes `B` to `[]` — the domains after the
second run differ from those after the first, so running `ac3` twice is not
idempotent. -/
theorem ac3_not_idempotent_on_false :
    (ac3 4 cspHalt).1 = some false ∧
    (ac3 4 cspHalt).2.domains V3.B = [2] ∧
    (ac3 4 (ac3 4 cspHalt).2).1 = some false ∧
    (ac3 4 (ac3 4 cspHalt).2).2.domains V3.B = [] := by
  decide

theorem nat_beq_comm (x y : Nat) : (x == y) = (y == x) := by
  rw [Bool.eq_iff_iff]
  simp only [beq_iff_eq]
  exact eq_comm

theorem nat_bne_comm (x y : Nat) : (x != y) = (y != x) := by
  show (!(x == y)) = (!(y == x))
  rw [nat_beq_comm]

theorem constraintAc_symm :
    ∀ (a : V3) (x : Nat) (b : V3) (y : Nat),
      cspAc.constraints a x b y = cspAc.constraints b y a x := by
  intro a x b y
  cases a <;> cases b <;>
    simp only [cspAc, constraintAc] <;>
    first
      | rfl
      | exact nat_beq_comm _ _
      | exact nat_bne_comm _ _

/-- Witness for `ac3_true_idempotent`: the module instance `cspAc` has a
symmetric predicate and a symmetric, irreflexive, closed neighbor map, and
its `ac3` run returns `true`; re-running `ac3` on the resulting store
changes nothing. -/
theorem ac3_true_idempotent_witness :
    ac3 ((initQueue (ac3 16 cspAc).2).length + 1) (ac3 16 cspAc).2
      = (some true, (ac3 16 cspAc).2) := by
  apply ac3_true_idempotent cspAc 16 (ac3 16 cspAc).2 constraintAc_symm
    (by decide) (by decide) (by decide)
  have h1 : (ac3 16 cspAc).1 = some true := by decide
  rw [← h1]

/-! ### Completeness of backtracking on the all-different triangle (claim C2) -/

/-! ### Small computation lemmas for the backtracking engine -/

theorem updD_self (d : Var → List Nat) (v : Var) (l : List Nat) :
    updD d v l v = l := by
  simp [updD]

theorem updD_other (d : Var → List Nat) (v y : Var) (l : List Nat) (h : y ≠ v) :
    updD d v l y = d y := by
  simp [updD, h]

theorem fcAux_nil (value : Nat) (a : List (Var × Nat)) (d : Var → List Nat)
    (rem : List (Var × List Nat)) : fcAux value a [] d rem = (some rem, d) := rfl

theorem fcAux_skip (value : Nat) (a : List (Var × Nat)) (y : Var)
    (rest : List Var) (d : Var → List Nat) (rem : List (Var × List Nat))
    (h : (alookup a y).isNone = false) :
    fcAux value a (y :: rest) d rem = fcAux value a rest d rem := by
  simp [fcAux, h]

theorem fcAux_absent (value : Nat) (a : List (Var × Nat)) (y : Var)
    (rest : List Var) (d : Var → List Nat) (rem : List (Var × List Nat))
    (h1 : alookup a y = none) (h2 : value ∉ d y) :
    fcAux value a (y :: rest) d rem = fcAux value a rest d rem := by
  simp [fcAux, h1, h2]

theorem fcAux_conflict (value : Nat) (a : List (Var × Nat)) (y : Var)
    (rest : List Var) (d : Var → List Nat) (rem : List (Var × List Nat))
    (h1 : alookup a y = none) (h2 : value ∈ d y) (h3 : (d y).erase value = []) :
    fcAux value a (y :: rest) d rem = (none, updD d y []) := by
  simp [fcAux, h1, h2, h3, updD_self]

theorem fcAux_prune (value : Nat) (a : List (Var × Nat)) (y : Var)
    (rest : List Var) (d : Var → List Nat) (rem : List (Var × List Nat))
    (z : Nat) (zs : List Nat)
    (h1 : alookup a y = none) (h2 : value ∈ d y) (h3 : (d y).erase value = z :: zs) :
    fcAux value a (y :: rest) d rem =
      fcAux value a rest (updD d y (z :: zs)) (dictInsertRec rem y [value]) := by
  simp [fcAux, h1, h2, h3, updD_self]

theorem remove_inference_none_eq (d : Var → List Nat) :
    remove_inference none d = d := rfl

theorem remove_inference_nil_rec (d : Var → List Nat) :
    remove_inference (some []) d = d := rfl

theorem remove_inference_one (k : Var) (vs : List Nat) (d : Var → List Nat) :
    remove_inference (some [(k, vs)]) d =
      updD d k (List.insertionSort (· ≤ ·) (restoreVals (d k) vs)) := rfl

theorem remove_inference_two (k₁ k₂ : Var) (h : k₂ ≠ k₁) (vs₁ vs₂ : List Nat)
    (d : Var → List Nat) :
    remove_inference (some [(k₁, vs₁), (k₂, vs₂)]) d =
      updD (updD d k₁ (List.insertionSort (· ≤ ·) (restoreVals (d k₁) vs₁))) k₂
        (List.insertionSort (· ≤ ·) (restoreVals (d k₂) vs₂)) := by
  show updD (updD d k₁ _) k₂
      (List.insertionSort (· ≤ ·) (restoreVals ((updD d k₁ _) k₂) vs₂)) = _
  rw [updD_other _ _ _ _ h]

theorem restoreVals_single_absent (dom : List Nat) (v : Nat) (h : v ∉ dom) :
    restoreVals dom [v] = dom ++ [v] := by
  show (if v ∈ dom then dom else dom ++ [v]) = dom ++ [v]
  rw [if_neg h]

theorem mem_insertionSort (l : List Nat) (t : Nat) :
    t ∈ List.insertionSort (· ≤ ·) l ↔ t ∈ l :=
  (List.perm_insertionSort (· ≤ ·) l).mem_iff

theorem nodup_insertionSort (l : List Nat) (h : l.Nodup) :
    (List.insertionSort (· ≤ ·) l).Nodup :=
  (List.Perm.nodup_iff (List.perm_insertionSort (· ≤ ·) l)).mpr h

theorem list_find?_congr {α : Type} (p p' : α → Bool) (h : ∀ x, p x = p' x) :
    ∀ l : List α, l.find? p = l.find? p'
  | [] => rfl
  | x :: xs => by
    by_cases hx : p x = true
    · rw [List.find?_cons_of_pos _ hx, List.find?_cons_of_pos _ ((h x) ▸ hx)]
    · rw [List.find?_cons_of_neg _ (by simpa using hx),
        List.find?_cons_of_neg _ (by rw [← h x]; simpa using hx),
        list_find?_congr p p' h xs]

/-! ### Small list facts used by the triangle analysis -/

theorem forall_eq_of_erase_nil (l : List Nat) (u : Nat) (h : l.erase u = []) :
    ∀ t ∈ l, t = u := by
  intro t ht
  by_contra hne
  have : t ∈ l.erase u := (List.mem_erase_of_ne hne).mpr ht
  rw [h] at this
  exact absurd this (List.not_mem_nil t)

theorem nodup_subsingleton (l : List Nat) (a : Nat) (hnd : l.Nodup)
    (h : ∀ t ∈ l, t = a) : l = [] ∨ l = [a] := by
  cases l with
  | nil => exact Or.inl rfl
  | cons x xs =>
    have hx : x = a := h x (List.mem_cons_self _ _)
    subst hx
    right
    cases xs with
    | nil => rfl
    | cons y ys =>
      have hy : y = x := h y (List.mem_cons_of_mem _ (List.mem_cons_self _ _))
      subst hy
      exact absurd (List.mem_cons_self _ _) (List.nodup_cons.mp hnd).1

theorem length_le_one_of_subsingleton (l : List Nat) (a : Nat) (hnd : l.Nodup)
    (h : ∀ t ∈ l, t = a) : l.length ≤ 1 := by
  rcases nodup_subsingleton l a hnd h with rfl | rfl <;> simp

theorem eq_singleton_of_set (l : List Nat) (a : Nat) (hnd : l.Nodup)
    (h : ∀ t, t ∈ l ↔ t = a) : l = [a] := by
  rcases nodup_subsingleton l a hnd (fun t ht => (h t).mp ht) with rfl | rfl
  · exact absurd ((h a).mpr rfl) (List.not_mem_nil a)
  · rfl

theorem eq_singleton_of_erase_nil (l : List Nat) (u : Nat) (hnd : l.Nodup)
    (hm : u ∈ l) (h : l.erase u = []) : l = [u] := by
  rcases nodup_subsingleton l u hnd (forall_eq_of_erase_nil l u h) with rfl | rfl
  · exact absurd hm (List.not_mem_nil u)
  · rfl

theorem length_le_two_of_subpair (l : List Nat) (a b : Nat) (hnd : l.Nodup)
    (h : ∀ t ∈ l, t = a ∨ t = b) : l.length ≤ 2 := by
  cases l with
  | nil => simp
  | cons x xs =>
    have hxs : xs.Nodup := (List.nodup_cons.mp hnd).2
    have hxnot : x ∉ xs := (List.nodup_cons.mp hnd).1
    rcases h x (List.mem_cons_self _ _) with rfl | rfl
    · have : ∀ t ∈ xs, t = b := by
        intro t ht
        rcases h t (List.mem_cons_of_mem _ ht) with rfl | rfl
        · exact absurd ht hxnot
        · rfl
      have := length_le_one_of_subsingleton xs b hxs this
      simp only [List.length_cons]
      omega
    · have : ∀ t ∈ xs, t = a := by
        intro t ht
        rcases h t (List.mem_cons_of_mem _ ht) with rfl | rfl
        · rfl
        · exact absurd ht hxnot
      have := length_le_one_of_subsingleton xs a hxs this
      simp only [List.length_cons]
      omega

theorem two_le_length_of_two_mem (l : List Nat) (a b : Nat) (ha : a ∈ l)
    (hb : b ∈ l) (hab : a ≠ b) : 2 ≤ l.length := by
  cases l with
  | nil => exact absurd ha (List.not_mem_nil a)
  | cons x xs =>
    cases xs with
    | nil =>
      rcases List.mem_singleton.mp ha with rfl
      rcases List.mem_singleton.mp hb with rfl
      exact absurd rfl hab
    | cons y ys => simp

/-! ### Closed form of the innermost search level -/

theorem is_consistent_nil_assignment (nb : Var → List Var) (var : Var)
    (value : Nat) : is_consistent nb var value [] = true := by
  unfold is_consistent
  exact List.all_eq_true.mpr (fun x _ => rfl)

theorem is_consistent_two (nb : Var → List Var) (var x₁ x₂ : Var) (w u v : ℕ)
    (a : List (Var × Nat)) (hnb : nb var = [x₁, x₂])
    (h₁ : alookup a x₁ = some w) (h₂ : alookup a x₂ = some u) :
    is_consistent nb var v a = (!(w == v) && !(u == v)) := by
  simp [is_consistent, hnb, h₁, h₂]

theorem tryValues_last (csp : BtCSP Var) (var x₁ x₂ : Var) (w u : ℕ)
    (a : List (Var × Nat)) (hnb : btNeighbors csp var = [x₁, x₂])
    (h₁ : alookup a x₁ = some w) (h₂ : alookup a x₂ = some u)
    (hlen : a.length + 1 = csp.vars.length) :
    ∀ (l : List Nat) (d : Var → List Nat),
      tryValues (fun a' d' => backtrackF 1 a' d' csp) csp var a l d =
        (match l.find? (fun v => !(w == v) && !(u == v)) with
         | some v => (some (some (a ++ [(var, v)])), d)
         | none => (some none, d)) := by
  intro l
  induction l with
  | nil => intro d; rfl
  | cons v vs ih =>
    intro d
    have hic : is_consistent (btNeighbors csp) var v a = (!(w == v) && !(u == v)) :=
      is_consistent_two (btNeighbors csp) var x₁ x₂ w u v a hnb h₁ h₂
    by_cases hv : (!(w == v) && !(u == v)) = true
    · have ha₁ : (alookup (a ++ [(var, v)]) x₁).isNone = false := by
        rw [alookup_append_of_some a _ _ _ h₁]; rfl
      have ha₂ : (alookup (a ++ [(var, v)]) x₂).isNone = false := by
        rw [alookup_append_of_some a _ _ _ h₂]; rfl
      have hfc : forward_checking (btNeighbors csp) var v (a ++ [(var, v)]) d =
          (some [], d) := by
        rw [forward_checking, hnb, fcAux_skip _ _ _ _ _ _ ha₁,
          fcAux_skip _ _ _ _ _ _ ha₂, fcAux_nil]
      have hbt : backtrackF 1 (a ++ [(var, v)]) d csp =
          (some (some (a ++ [(var, v)])), d) := by
        simp only [backtrackF]
        rw [if_pos (by simpa using hlen)]
      have hv' : (fun t => !(w == t) && !(u == t)) v = true := hv
      simp only [tryValues, hic, hv, if_pos, hfc, hbt]
      rw [List.find?_cons_of_pos vs hv']
    · have hv' : ¬ (fun t => !(w == t) && !(u == t)) v = true := hv
      simp only [tryValues, hic]
      rw [if_neg (by simpa using hv), ih d, List.find?_cons_of_neg vs hv']

/-! ### Role bookkeeping on the triangle's three variables -/

theorem triRoles2_left (r p q : V3) (h : triRoles r p q) : triRoles2 r p q := by
  rcases h with ⟨rfl, rfl, rfl⟩ | ⟨rfl, rfl, rfl⟩ | ⟨rfl, rfl, rfl⟩
  · exact Or.inl ⟨rfl, rfl, rfl⟩
  · exact Or.inr (Or.inr (Or.inl ⟨rfl, rfl, rfl⟩))
  · exact Or.inr (Or.inr (Or.inr (Or.inr (Or.inl ⟨rfl, rfl, rfl⟩))))

theorem triRoles2_right (r p q : V3) (h : triRoles r p q) : triRoles2 r q p := by
  rcases h with ⟨rfl, rfl, rfl⟩ | ⟨rfl, rfl, rfl⟩ | ⟨rfl, rfl, rfl⟩
  · exact Or.inr (Or.inl ⟨rfl, rfl, rfl⟩)
  · exact Or.inr (Or.inr (Or.inr (Or.inl ⟨rfl, rfl, rfl⟩)))
  · exact Or.inr (Or.inr (Or.inr (Or.inr (Or.inr ⟨rfl, rfl, rfl⟩))))

theorem tri_depth2_eq (r X n : V3) (h6 : triRoles2 r X n) (w u : ℕ)
    (d : V3 → List ℕ) :
    backtrackF 2 [(r, w), (X, u)] d cspTri =
      match (d n).find? (fun t => !(t == w) && !(t == u)) with
      | some v => (some (some [(r, w), (X, u), (n, v)]), d)
      | none => (some none, d) := by
  rcases h6 with h | h | h | h | h | h <;> obtain ⟨rfl, rfl, rfl⟩ := h
  · rw [show backtrackF 2 [(V3.A, w), (V3.B, u)] d cspTri =
        tryValues (fun a' d' => backtrackF 1 a' d' cspTri) cspTri V3.C
          [(V3.A, w), (V3.B, u)] (d V3.C) d from rfl,
      tryValues_last cspTri V3.C V3.A V3.B w u [(V3.A, w), (V3.B, u)] rfl rfl rfl rfl,
      list_find?_congr _ (fun t => !(t == w) && !(t == u))
        (fun x => by rw [nat_beq_comm w x, nat_beq_comm u x])]
    cases (d V3.C).find? (fun t => !(t == w) && !(t == u)) <;> rfl
  · rw [show backtrackF 2 [(V3.A, w), (V3.C, u)] d cspTri =
        tryValues (fun a' d' => backtrackF 1 a' d' cspTri) cspTri V3.B
          [(V3.A, w), (V3.C, u)] (d V3.B) d from rfl,
      tryValues_last cspTri V3.B V3.A V3.C w u [(V3.A, w), (V3.C, u)] rfl rfl rfl rfl,
      list_find?_congr _ (fun t => !(t == w) && !(t == u))
        (fun x => by rw [nat_beq_comm w x, nat_beq_comm u x])]
    cases (d V3.B).find? (fun t => !(t == w) && !(t == u)) <;> rfl
  · rw [show backtrackF 2 [(V3.B, w), (V3.A, u)] d cspTri =
        tryValues (fun a' d' => backtrackF 1 a' d' cspTri) cspTri V3.C
          [(V3.B, w), (V3.A, u)] (d V3.C) d from rfl,
      tryValues_last cspTri V3.C V3.A V3.B u w [(V3.B, w), (V3.A, u)] rfl rfl rfl rfl,
      list_find?_congr _ (fun t => !(t == w) && !(t == u))
        (fun x => by rw [nat_beq_comm u x, nat_beq_comm w x, Bool.and_comm])]
    cases (d V3.C).find? (fun t => !(t == w) && !(t == u)) <;> rfl
  · rw [show backtrackF 2 [(V3.B, w), (V3.C, u)] d cspTri =
        tryValues (fun a' d' => backtrackF 1 a' d' cspTri) cspTri V3.A
          [(V3.B, w), (V3.C, u)] (d V3.A) d from rfl,
      tryValues_last cspTri V3.A V3.B V3.C w u [(V3.B, w), (V3.C, u)] rfl rfl rfl rfl,
      list_find?_congr _ (fun t => !(t == w) && !(t == u))
        (fun x => by rw [nat_beq_comm w x, nat_beq_comm u x])]
    cases (d V3.A).find? (fun t => !(t == w) && !(t == u)) <;> rfl
  · rw [show backtrackF 2 [(V3.C, w), (V3.A, u)] d cspTri =
        tryValues (fun a' d' => backtrackF 1 a' d' cspTri) cspTri V3.B
          [(V3.C, w), (V3.A, u)] (d V3.B) d from rfl,
      tryValues_last cspTri V3.B V3.A V3.C u w [(V3.C, w), (V3.A, u)] rfl rfl rfl rfl,
      list_find?_congr _ (fun t => !(t == w) && !(t == u))
        (fun x => by rw [nat_beq_comm u x, nat_beq_comm w x, Bool.and_comm])]
    cases (d V3.B).find? (fun t => !(t == w) && !(t == u)) <;> rfl
  · rw [show backtrackF 2 [(V3.C, w), (V3.B, u)] d cspTri =
        tryValues (fun a' d' => backtrackF 1 a' d' cspTri) cspTri V3.A
          [(V3.C, w), (V3.B, u)] (d V3.A) d from rfl,
      tryValues_last cspTri V3.A V3.B V3.C u w [(V3.C, w), (V3.B, u)] rfl rfl rfl rfl,
      list_find?_congr _ (fun t => !(t == w) && !(t == u))
        (fun x => by rw [nat_beq_comm u x, nat_beq_comm w x, Bool.and_comm])]
    cases (d V3.A).find? (fun t => !(t == w) && !(t == u)) <;> rfl

theorem tri_depth2_none (r X n : V3) (h6 : triRoles2 r X n) (w u : ℕ)
    (d : V3 → List ℕ)
    (hf : (d n).find? (fun t => !(t == w) && !(t == u)) = none) :
    backtrackF 2 [(r, w), (X, u)] d cspTri = (some none, d) := by
  rw [tri_depth2_eq r X n h6 w u d, hf]

theorem tri_depth2_some (r X n : V3) (h6 : triRoles2 r X n) (w u v : ℕ)
    (d : V3 → List ℕ)
    (hf : (d n).find? (fun t => !(t == w) && !(t == u)) = some v) :
    backtrackF 2 [(r, w), (X, u)] d cspTri =
      (some (some [(r, w), (X, u), (n, v)]), d) := by
  rw [tri_depth2_eq r X n h6 w u d, hf]

theorem alookup_nil (v : Var) : alookup ([] : List (Var × Nat)) v = none := rfl

theorem alookup_cons_self (v : Var) (x : Nat) (rest : List (Var × Nat)) :
    alookup ((v, x) :: rest) v = some x := by
  simp [alookup]

theorem alookup_cons_ne (k v : Var) (x : Nat) (rest : List (Var × Nat))
    (h : k ≠ v) : alookup ((k, x) :: rest) v = alookup rest v := by
  simp [alookup, h]

theorem is_consistent_one_assigned (nb : Var → List Var) (var y₁ y₂ : Var)
    (w u : ℕ) (a : List (Var × Nat)) (hnb : nb var = [y₁, y₂])
    (h : (alookup a y₁ = some w ∧ alookup a y₂ = none) ∨
      (alookup a y₁ = none ∧ alookup a y₂ = some w)) :
    is_consistent nb var u a = !(w == u) := by
  rcases h with ⟨h₁, h₂⟩ | ⟨h₁, h₂⟩ <;> simp [is_consistent, hnb, h₁, h₂]

theorem triRoles2_ne (r X n : V3) (h6 : triRoles2 r X n) :
    r ≠ X ∧ r ≠ n ∧ X ≠ n := by
  rcases h6 with h | h | h | h | h | h <;> obtain ⟨rfl, rfl, rfl⟩ := h <;>
    exact ⟨by decide, by decide, by decide⟩

theorem triRoles2_nbX (r X n : V3) (h6 : triRoles2 r X n) :
    btNeighbors cspTri X = [r, n] ∨ btNeighbors cspTri X = [n, r] := by
  rcases h6 with h | h | h | h | h | h <;> obtain ⟨rfl, rfl, rfl⟩ := h
  · exact Or.inl rfl
  · exact Or.inl rfl
  · exact Or.inl rfl
  · exact Or.inr rfl
  · exact Or.inr rfl
  · exact Or.inr rfl

theorem tri_d1_empty (r X n : V3) (h6 : triRoles2 r X n) (w : ℕ) :
    ∀ (vals : List ℕ) (d : V3 → List ℕ), d n = [] →
      tryValues (fun a' d' => backtrackF 2 a' d' cspTri) cspTri X [(r, w)] vals d =
        (some none, d) := by
  obtain ⟨hrX, hrn, hXn⟩ := triRoles2_ne r X n h6
  have hlr : alookup [(r, w)] r = some w := alookup_cons_self r w []
  have hln : alookup [(r, w)] n = none := by
    rw [alookup_cons_ne r n w [] hrn, alookup_nil]
  intro vals
  induction vals with
  | nil => intro d _; rfl
  | cons u us ih =>
    intro d hdn
    have hic : is_consistent (btNeighbors cspTri) X u [(r, w)] = !(w == u) := by
      rcases triRoles2_nbX r X n h6 with hnb | hnb
      · exact is_consistent_one_assigned _ X r n w u _ hnb (Or.inl ⟨hlr, hln⟩)
      · exact is_consistent_one_assigned _ X n r w u _ hnb (Or.inr ⟨hln, hlr⟩)
    by_cases huw : w = u
    · have hic' : is_consistent (btNeighbors cspTri) X u [(r, w)] = false := by
        rw [hic, huw]; simp
      simp only [tryValues, hic']
      rw [if_neg (by simp)]
      exact ih d hdn
    · have hic' : is_consistent (btNeighbors cspTri) X u [(r, w)] = true := by
        rw [hic]; simp [huw]
      have ha'r : alookup ([(r, w)] ++ [(X, u)]) r = some w := alookup_cons_self r w _
      have ha'n : alookup ([(r, w)] ++ [(X, u)]) n = none := by
        rw [List.cons_append, List.nil_append, alookup_cons_ne r n w _ hrn,
          alookup_cons_ne X n u [] hXn, alookup_nil]
      have hfc : forward_checking (btNeighbors cspTri) X u ([(r, w)] ++ [(X, u)]) d =
          (some [], d) := by
        rcases triRoles2_nbX r X n h6 with hnb | hnb
        · rw [forward_checking, hnb,
            fcAux_skip _ _ _ _ _ _ (by rw [ha'r]; rfl),
            fcAux_absent _ _ _ _ _ _ ha'n (by rw [hdn]; exact List.not_mem_nil u),
            fcAux_nil]
        · rw [forward_checking, hnb,
            fcAux_absent _ _ _ _ _ _ ha'n (by rw [hdn]; exact List.not_mem_nil u),
            fcAux_skip _ _ _ _ _ _ (by rw [ha'r]; rfl),
            fcAux_nil]
      have hbt : backtrackF 2 ([(r, w)] ++ [(X, u)]) d cspTri = (some none, d) := by
        rw [List.cons_append, List.nil_append]
        exact tri_depth2_none r X n h6 w u d (by rw [hdn]; rfl)
      simp only [tryValues, hic', if_pos, hfc, hbt, remove_inference_nil_rec]
      exact ih d hdn

theorem tri_d1_conflict (r X n : V3) (h6 : triRoles2 r X n) (w u : ℕ)
    (us : List ℕ) (d : V3 → List ℕ) (hnd : (d n).Nodup) (huw : w ≠ u)
    (he : (d n).erase u = []) :
    (tryValues (fun a' d' => backtrackF 2 a' d' cspTri) cspTri X [(r, w)]
        (u :: us) d).1 = some none ∧
    (tryValues (fun a' d' => backtrackF 2 a' d' cspTri) cspTri X [(r, w)]
        (u :: us) d).2 n = [] ∧
    (∀ y, y ≠ n → (tryValues (fun a' d' => backtrackF 2 a' d' cspTri) cspTri X
        [(r, w)] (u :: us) d).2 y = d y) := by
  obtain ⟨hrX, hrn, hXn⟩ := triRoles2_ne r X n h6
  have hlr : alookup [(r, w)] r = some w := alookup_cons_self r w []
  have hln : alookup [(r, w)] n = none := by
    rw [alookup_cons_ne r n w [] hrn, alookup_nil]
  have hic' : is_consistent (btNeighbors cspTri) X u [(r, w)] = true := by
    have hic : is_consistent (btNeighbors cspTri) X u [(r, w)] = !(w == u) := by
      rcases triRoles2_nbX r X n h6 with hnb | hnb
      · exact is_consistent_one_assigned _ X r n w u _ hnb (Or.inl ⟨hlr, hln⟩)
      · exact is_consistent_one_assigned _ X n r w u _ hnb (Or.inr ⟨hln, hlr⟩)
    rw [hic]; simp [huw]
  have ha'r : alookup ([(r, w)] ++ [(X, u)]) r = some w := alookup_cons_self r w _
  have ha'n : alookup ([(r, w)] ++ [(X, u)]) n = none := by
    rw [List.cons_append, List.nil_append, alookup_cons_ne r n w _ hrn,
      alookup_cons_ne X n u [] hXn, alookup_nil]
  by_cases hmem : u ∈ d n
  · have hfc : forward_checking (btNeighbors cspTri) X u ([(r, w)] ++ [(X, u)]) d =
        (none, updD d n []) := by
      rcases triRoles2_nbX r X n h6 with hnb | hnb
      · rw [forward_checking, hnb,
          fcAux_skip _ _ _ _ _ _ (by rw [ha'r]; rfl),
          fcAux_conflict _ _ _ _ _ _ ha'n hmem he]
      · rw [forward_checking, hnb,
          fcAux_conflict _ _ _ _ _ _ ha'n hmem he]
    have hrest : tryValues (fun a' d' => backtrackF 2 a' d' cspTri) cspTri X
        [(r, w)] us (updD d n []) = (some none, updD d n []) :=
      tri_d1_empty r X n h6 w us (updD d n []) (updD_self d n [])
    have hres : tryValues (fun a' d' => backtrackF 2 a' d' cspTri) cspTri X
        [(r, w)] (u :: us) d = (some none, updD d n []) := by
      simp only [tryValues, hic', if_pos, hfc, remove_inference_none_eq, hrest]
    rw [hres]
    exact ⟨rfl, updD_self d n [], fun y hy => updD_other d n y [] hy⟩
  · have hdn : d n = [] := by
      rw [← List.erase_of_not_mem hmem, he]
    have hfc : forward_checking (btNeighbors cspTri) X u ([(r, w)] ++ [(X, u)]) d =
        (some [], d) := by
      rcases triRoles2_nbX r X n h6 with hnb | hnb
      · rw [forward_checking, hnb,
          fcAux_skip _ _ _ _ _ _ (by rw [ha'r]; rfl),
          fcAux_absent _ _ _ _ _ _ ha'n hmem, fcAux_nil]
      · rw [forward_checking, hnb,
          fcAux_absent _ _ _ _ _ _ ha'n hmem,
          fcAux_skip _ _ _ _ _ _ (by rw [ha'r]; rfl), fcAux_nil]
    have hbt : backtrackF 2 ([(r, w)] ++ [(X, u)]) d cspTri = (some none, d) := by
      rw [List.cons_append, List.nil_append]
      exact tri_depth2_none r X n h6 w u d (by rw [hdn]; rfl)
    have hrest : tryValues (fun a' d' => backtrackF 2 a' d' cspTri) cspTri X
        [(r, w)] us d = (some none, d) :=
      tri_d1_empty r X n h6 w us d hdn
    have hres : tryValues (fun a' d' => backtrackF 2 a' d' cspTri) cspTri X
        [(r, w)] (u :: us) d = (some none, d) := by
      simp only [tryValues, hic', if_pos, hfc, hbt, remove_inference_nil_rec, hrest]
    rw [hres]
    exact ⟨rfl, hdn, fun y _ => rfl⟩

theorem tri_d1_success (r X n : V3) (h6 : triRoles2 r X n) (w u v₀ : ℕ)
    (l' us : List ℕ) (d : V3 → List ℕ) (hnd : (d n).Nodup) (hw : w ∉ d n)
    (huw : w ≠ u) (he : (d n).erase u = v₀ :: l') :
    (tryValues (fun a' d' => backtrackF 2 a' d' cspTri) cspTri X [(r, w)]
        (u :: us) d).1 = some (some [(r, w), (X, u), (n, v₀)]) ∧
    (tryValues (fun a' d' => backtrackF 2 a' d' cspTri) cspTri X [(r, w)]
        (u :: us) d).2 n = v₀ :: l' ∧
    (∀ y, y ≠ n → (tryValues (fun a' d' => backtrackF 2 a' d' cspTri) cspTri X
        [(r, w)] (u :: us) d).2 y = d y) := by
  obtain ⟨hrX, hrn, hXn⟩ := triRoles2_ne r X n h6
  have hlr : alookup [(r, w)] r = some w := alookup_cons_self r w []
  have hln : alookup [(r, w)] n = none := by
    rw [alookup_cons_ne r n w [] hrn, alookup_nil]
  have hic' : is_consistent (btNeighbors cspTri) X u [(r, w)] = true := by
    have hic : is_consistent (btNeighbors cspTri) X u [(r, w)] = !(w == u) := by
      rcases triRoles2_nbX r X n h6 with hnb | hnb
      · exact is_consistent_one_assigned _ X r n w u _ hnb (Or.inl ⟨hlr, hln⟩)
      · exact is_consistent_one_assigned _ X n r w u _ hnb (Or.inr ⟨hln, hlr⟩)
    rw [hic]; simp [huw]
  have ha'r : alookup ([(r, w)] ++ [(X, u)]) r = some w := alookup_cons_self r w _
  have ha'n : alookup ([(r, w)] ++ [(X, u)]) n = none := by
    rw [List.cons_append, List.nil_append, alookup_cons_ne r n w _ hrn,
      alookup_cons_ne X n u [] hXn, alookup_nil]
  have hv₀e : v₀ ∈ (d n).erase u := by rw [he]; exact List.mem_cons_self v₀ l'
  have hv₀u : v₀ ≠ u := ((List.Nodup.mem_erase_iff hnd).mp hv₀e).1
  have hv₀n : v₀ ∈ d n := ((List.Nodup.mem_erase_iff hnd).mp hv₀e).2
  have hv₀w : v₀ ≠ w := fun hh => hw (hh ▸ hv₀n)
  have hpred : (fun t => !(t == w) && !(t == u)) v₀ = true := by
    simp [hv₀w, hv₀u]
  by_cases hmem : u ∈ d n
  · have hfc : forward_checking (btNeighbors cspTri) X u ([(r, w)] ++ [(X, u)]) d =
        (some [(n, [u])], updD d n (v₀ :: l')) := by
      rcases triRoles2_nbX r X n h6 with hnb | hnb
      · rw [forward_checking, hnb,
          fcAux_skip _ _ _ _ _ _ (by rw [ha'r]; rfl),
          fcAux_prune _ _ _ _ _ _ _ _ ha'n hmem he, fcAux_nil]
        rfl
      · rw [forward_checking, hnb,
          fcAux_prune _ _ _ _ _ _ _ _ ha'n hmem he,
          fcAux_skip _ _ _ _ _ _ (by rw [ha'r]; rfl), fcAux_nil]
        rfl
    have hbt : backtrackF 2 ([(r, w)] ++ [(X, u)]) (updD d n (v₀ :: l')) cspTri =
        (some (some [(r, w), (X, u), (n, v₀)]), updD d n (v₀ :: l')) := by
      rw [List.cons_append, List.nil_append]
      exact tri_depth2_some r X n h6 w u v₀ (updD d n (v₀ :: l'))
        (by rw [updD_self]; exact List.find?_cons_of_pos l' hpred)
    have hres : tryValues (fun a' d' => backtrackF 2 a' d' cspTri) cspTri X
        [(r, w)] (u :: us) d =
        (some (some [(r, w), (X, u), (n, v₀)]), updD d n (v₀ :: l')) := by
      simp only [tryValues, hic', if_pos, hfc, hbt]
    rw [hres]
    exact ⟨rfl, updD_self d n _, fun y hy => updD_other d n y _ hy⟩
  · have hdn : d n = v₀ :: l' := by
      rw [← List.erase_of_not_mem hmem, he]
    have hfc : forward_checking (btNeighbors cspTri) X u ([(r, w)] ++ [(X, u)]) d =
        (some [], d) := by
      rcases triRoles2_nbX r X n h6 with hnb | hnb
      · rw [forward_checking, hnb,
          fcAux_skip _ _ _ _ _ _ (by rw [ha'r]; rfl),
          fcAux_absent _ _ _ _ _ _ ha'n hmem, fcAux_nil]
      · rw [forward_checking, hnb,
          fcAux_absent _ _ _ _ _ _ ha'n hmem,
          fcAux_skip _ _ _ _ _ _ (by rw [ha'r]; rfl), fcAux_nil]
    have hbt : backtrackF 2 ([(r, w)] ++ [(X, u)]) d cspTri =
        (some (some [(r, w), (X, u), (n, v₀)]), d) := by
      rw [List.cons_append, List.nil_append]
      exact tri_depth2_some r X n h6 w u v₀ d
        (by rw [hdn]; exact List.find?_cons_of_pos l' hpred)
    have hres : tryValues (fun a' d' => backtrackF 2 a' d' cspTri) cspTri X
        [(r, w)] (u :: us) d = (some (some [(r, w), (X, u), (n, v₀)]), d) := by
      simp only [tryValues, hic', if_pos, hfc, hbt]
    rw [hres]
    exact ⟨rfl, hdn, fun y _ => rfl⟩

theorem tri_filter1 (r p q : V3) (h3 : triRoles r p q) (w : ℕ) :
    cspTri.vars.filter (fun v => (alookup [(r, w)] v).isNone) = [p, q] := by
  rcases h3 with ⟨rfl, rfl, rfl⟩ | ⟨rfl, rfl, rfl⟩ | ⟨rfl, rfl, rfl⟩ <;> rfl

theorem tri_nb_root (r p q : V3) (h3 : triRoles r p q) :
    btNeighbors cspTri r = [p, q] := by
  rcases h3 with ⟨rfl, rfl, rfl⟩ | ⟨rfl, rfl, rfl⟩ | ⟨rfl, rfl, rfl⟩ <;> rfl

theorem minByDomLen_pair (d : Var → List Nat) (x y : Var) :
    minByDomLen d [x, y] = some (if (d y).length < (d x).length then y else x) := rfl

/-- One full nested search below the root assignment `r := w` on the
triangle: either it succeeds, returning the root assignment extended with two
further distinct values straight from the current domains, or it fails, in
which case the two current domains admit no pair of distinct values, and the
domains are left unchanged except that a conflict at the final variable may
wipe the second domain (both domains then being the same singleton). -/
theorem tri_frame (r p q : V3) (h3 : triRoles r p q) (w : ℕ)
    (d₂ : V3 → List ℕ) (hp : w ∉ d₂ p) (hq : w ∉ d₂ q)
    (hndp : (d₂ p).Nodup) (hndq : (d₂ q).Nodup) :
    (∃ X n u v, ((X = p ∧ n = q) ∨ (X = q ∧ n = p)) ∧ u ∈ d₂ X ∧ v ∈ d₂ n ∧
      w ≠ u ∧ w ≠ v ∧ u ≠ v ∧
      (backtrackF 3 [(r, w)] d₂ cspTri).1 = some (some [(r, w), (X, u), (n, v)])) ∨
    ((∀ u ∈ d₂ p, ∀ v ∈ d₂ q, u = v) ∧
      (backtrackF 3 [(r, w)] d₂ cspTri = (some none, d₂) ∨
        ∃ u, d₂ p = [u] ∧ d₂ q = [u] ∧ w ≠ u ∧
          backtrackF 3 [(r, w)] d₂ cspTri = (some none, updD d₂ q []))) := by
  obtain ⟨hrp, hrq, hpq⟩ := triRoles2_ne r p q (triRoles2_left r p q h3)
  have hsel : select_unassigned_variable [(r, w)] d₂ cspTri =
      some (if (d₂ q).length < (d₂ p).length then q else p) := by
    rw [select_unassigned_variable, tri_filter1 r p q h3 w]; rfl
  by_cases hlt : (d₂ q).length < (d₂ p).length
  · -- the second variable q is selected; the third variable is p
    have h6X : triRoles2 r q p := triRoles2_right r p q h3
    have h0 : backtrackF 3 [(r, w)] d₂ cspTri =
        tryValues (fun a' d' => backtrackF 2 a' d' cspTri) cspTri q
          [(r, w)] (d₂ q) d₂ := by
      simp only [backtrackF]
      rw [if_neg (by simp [cspTri]), hsel, if_pos hlt]
    by_cases hnil : d₂ q = []
    · refine Or.inr ⟨fun u _ v hv => ?_, Or.inl ?_⟩
      · rw [hnil] at hv; exact absurd hv (List.not_mem_nil v)
      · rw [h0, hnil]; rfl
    · obtain ⟨u, us, hvals⟩ := List.exists_cons_of_ne_nil hnil
      have humem : u ∈ d₂ q := by rw [hvals]; exact List.mem_cons_self u us
      have huw : w ≠ u := fun hh => hq (hh ▸ humem)
      cases he : (d₂ p).erase u with
      | nil =>
        by_cases hup : u ∈ d₂ p
        · -- would need q strictly smaller than the singleton p: impossible
          have h1 : d₂ p = [u] := eq_singleton_of_erase_nil _ u hndp hup he
          rw [h1, hvals] at hlt
          simp only [List.length_cons, List.length_nil, List.length_singleton] at hlt
          omega
        · have hdp : d₂ p = [] := by rw [← List.erase_of_not_mem hup, he]
          obtain ⟨hr1, hr2, hr3⟩ :=
            tri_d1_conflict r q p h6X w u us d₂ hndp huw he
          refine Or.inr ⟨fun x hx v _ => ?_, Or.inl ?_⟩
          · rw [hdp] at hx; exact absurd hx (List.not_mem_nil x)
          · rw [h0, hvals]
            refine Prod.ext ?_ (funext fun y => ?_)
            · exact hr1
            · by_cases hy : y = p
              · rw [hy, hr2]; exact hdp.symm
              · exact hr3 y hy
      | cons v₀ l' =>
        obtain ⟨hr1, hr2, hr3⟩ :=
          tri_d1_success r q p h6X w u v₀ l' us d₂ hndp hp huw he
        have hv₀e : v₀ ∈ (d₂ p).erase u := by
          rw [he]; exact List.mem_cons_self v₀ l'
        refine Or.inl ⟨q, p, u, v₀, Or.inr ⟨rfl, rfl⟩, humem,
          List.mem_of_mem_erase hv₀e, huw, ?_, ?_, ?_⟩
        · exact fun hh => hp (hh ▸ List.mem_of_mem_erase hv₀e)
        · exact fun hh => ((List.Nodup.mem_erase_iff hndp).mp hv₀e).1 hh.symm
        · rw [h0, hvals]; exact hr1
  · -- the first variable p is selected; the third variable is q
    have h6X : triRoles2 r p q := triRoles2_left r p q h3
    have h0 : backtrackF 3 [(r, w)] d₂ cspTri =
        tryValues (fun a' d' => backtrackF 2 a' d' cspTri) cspTri p
          [(r, w)] (d₂ p) d₂ := by
      simp only [backtrackF]
      rw [if_neg (by simp [cspTri]), hsel, if_neg hlt]
    by_cases hnil : d₂ p = []
    · refine Or.inr ⟨fun u hu v _ => ?_, Or.inl ?_⟩
      · rw [hnil] at hu; exact absurd hu (List.not_mem_nil u)
      · rw [h0, hnil]; rfl
    · obtain ⟨u, us, hvals⟩ := List.exists_cons_of_ne_nil hnil
      have humem : u ∈ d₂ p := by rw [hvals]; exact List.mem_cons_self u us
      have huw : w ≠ u := fun hh => hp (hh ▸ humem)
      cases he : (d₂ q).erase u with
      | nil =>
        by_cases huq : u ∈ d₂ q
        · -- the conflict case: both domains are the singleton [u]
          have h1 : d₂ q = [u] := eq_singleton_of_erase_nil _ u hndq huq he
          have hle : (d₂ p).length ≤ (d₂ q).length := Nat.le_of_not_lt hlt
          rw [h1, hvals] at hle
          simp only [List.length_cons, List.length_nil, List.length_singleton] at hle
          have hus : us = [] := List.length_eq_zero.mp (by omega)
          have h2 : d₂ p = [u] := by rw [hvals, hus]
          obtain ⟨hr1, hr2, hr3⟩ :=
            tri_d1_conflict r p q h6X w u us d₂ hndq huw he
          refine Or.inr ⟨?_, Or.inr ⟨u, h2, h1, huw, ?_⟩⟩
          · intro x hx v hv
            rw [h2] at hx
            rw [h1] at hv
            rw [List.mem_singleton.mp hx, List.mem_singleton.mp hv]
          · rw [h0, hvals]
            refine Prod.ext ?_ (funext fun y => ?_)
            · exact hr1
            · by_cases hy : y = q
              · rw [hy, hr2]; exact (updD_self d₂ q []).symm
              · rw [hr3 y hy]; exact (updD_other d₂ q y [] hy).symm
        · have hdq : d₂ q = [] := by rw [← List.erase_of_not_mem huq, he]
          obtain ⟨hr1, hr2, hr3⟩ :=
            tri_d1_conflict r p q h6X w u us d₂ hndq huw he
          refine Or.inr ⟨fun x _ v hv => ?_, Or.inl ?_⟩
          · rw [hdq] at hv; exact absurd hv (List.not_mem_nil v)
          · rw [h0, hvals]
            refine Prod.ext ?_ (funext fun y => ?_)
            · exact hr1
            · by_cases hy : y = q
              · rw [hy, hr2]; exact hdq.symm
              · exact hr3 y hy
      | cons v₀ l' =>
        obtain ⟨hr1, hr2, hr3⟩ :=
          tri_d1_success r p q h6X w u v₀ l' us d₂ hndq hq huw he
        have hv₀e : v₀ ∈ (d₂ q).erase u := by
          rw [he]; exact List.mem_cons_self v₀ l'
        refine Or.inl ⟨p, q, u, v₀, Or.inl ⟨rfl, rfl⟩, humem,
          List.mem_of_mem_erase hv₀e, huw, ?_, ?_, ?_⟩
        · exact fun hh => hq (hh ▸ List.mem_of_mem_erase hv₀e)
        · exact fun hh => ((List.Nodup.mem_erase_iff hndq).mp hv₀e).1 hh.symm
        · rw [h0, hvals]; exact hr1

theorem dictInsertRec_two (p q : Var) (h : p ≠ q) (v₁ v₂ : List Nat) :
    dictInsertRec [(p, v₁)] q v₂ = [(p, v₁), (q, v₂)] := by
  simp [dictInsertRec, h]

theorem mem_sort_restore (l : List ℕ) (w : ℕ) (hw : w ∉ l) (t : ℕ) :
    t ∈ List.insertionSort (· ≤ ·) (restoreVals l [w]) ↔ (t ∈ l ∨ t = w) := by
  rw [mem_insertionSort, restoreVals_single_absent l w hw, List.mem_append,
    List.mem_singleton]

theorem nodup_sort_restore (l : List ℕ) (w : ℕ) (hw : w ∉ l) (hnd : l.Nodup) :
    (List.insertionSort (· ≤ ·) (restoreVals l [w])).Nodup := by
  apply nodup_insertionSort
  rw [restoreVals_single_absent l w hw]
  exact List.Nodup.append hnd (List.nodup_singleton w)
    (fun a ha hb => by rcases List.mem_singleton.mp hb with rfl; exact hw ha)

/-- If one root trial's nested search fails, the pre-trial domains of the two
non-root variables admit no solution pair for this root value — in either of
the two invariant shapes of the root loop. -/
theorem tri_no_current_sol (P₀ Q₀ : List ℕ) (w : ℕ) (dp dq : List ℕ)
    (hdp : dp.Nodup) (hdq : dq.Nodup)
    (cert : ∀ u ∈ dp.erase w, ∀ v ∈ dq.erase w, u = v)
    (hstate : ((∀ t, t ∈ dp ↔ t ∈ P₀) ∧ (∀ t, t ∈ dq ↔ t ∈ Q₀)) ∨
      (∃ wb ub, w ≠ wb ∧ wb ≠ ub ∧ (∀ t, t ∈ P₀ ↔ (t = wb ∨ t = ub)) ∧
        (∀ t, t ∈ Q₀ ↔ (t = wb ∨ t = ub)) ∧ (∀ t, t ∈ dp ↔ (t = wb ∨ t = ub)) ∧
        (∀ t, t ∈ dq ↔ t = wb))) :
    ∀ x ∈ P₀, ∀ y ∈ Q₀, ¬(w ≠ x ∧ w ≠ y ∧ x ≠ y) := by
  rcases hstate with ⟨hP1, hQ1⟩ | ⟨wb, ub, hwwb, hwbub, hPb, hQb, hdpb, hdqb⟩
  · intro x hx y hy ⟨h1, h2, h3⟩
    have hxp : x ∈ dp.erase w :=
      (List.mem_erase_of_ne (Ne.symm h1)).mpr ((hP1 x).mpr hx)
    have hyq : y ∈ dq.erase w :=
      (List.mem_erase_of_ne (Ne.symm h2)).mpr ((hQ1 y).mpr hy)
    exact h3 (cert x hxp y hyq)
  · by_cases hwu : w = ub
    · subst hwu
      intro x hx y hy ⟨h1, h2, h3⟩
      rcases (hPb x).mp hx with rfl | rfl
      · rcases (hQb y).mp hy with rfl | rfl
        · exact h3 rfl
        · exact h2 rfl
      · exact h1 rfl
    · intro x hx y hy _
      have hub : ub ∈ dp.erase w :=
        (List.mem_erase_of_ne (fun hh => hwu hh.symm)).mpr ((hdpb ub).mpr (Or.inr rfl))
      have hwb : wb ∈ dq.erase w :=
        (List.mem_erase_of_ne (Ne.symm hwwb)).mpr ((hdqb wb).mpr rfl)
      exact absurd (cert ub hub wb hwb) (Ne.symm hwbub)

theorem validTri_of_roles (r p q X n : V3) (h3 : triRoles r p q)
    (hXn : (X = p ∧ n = q) ∨ (X = q ∧ n = p)) (w u v : ℕ)
    (hwu : w ≠ u) (hwv : w ≠ v) (huv : u ≠ v) :
    validTriAssign [(r, w), (X, u), (n, v)] = true := by
  rcases h3 with ⟨rfl, rfl, rfl⟩ | ⟨rfl, rfl, rfl⟩ | ⟨rfl, rfl, rfl⟩ <;>
    rcases hXn with ⟨rfl, rfl⟩ | ⟨rfl, rfl⟩ <;>
    simp [validTriAssign, alookup, hwu, hwv, huv,
      Ne.symm hwu, Ne.symm hwv, Ne.symm huv]

theorem ri_one_self (k : Var) (vs : List Nat) (d : Var → List Nat) :
    (remove_inference (some [(k, vs)]) d) k =
      List.insertionSort (· ≤ ·) (restoreVals (d k) vs) := by
  rw [remove_inference_one]; exact updD_self _ _ _

theorem ri_one_other (k y : Var) (vs : List Nat) (d : Var → List Nat)
    (hy : y ≠ k) : (remove_inference (some [(k, vs)]) d) y = d y := by
  rw [remove_inference_one]; exact updD_other _ _ _ _ hy

theorem ri_two_fst (k₁ k₂ : Var) (h : k₂ ≠ k₁) (vs₁ vs₂ : List Nat)
    (d : Var → List Nat) :
    (remove_inference (some [(k₁, vs₁), (k₂, vs₂)]) d) k₁ =
      List.insertionSort (· ≤ ·) (restoreVals (d k₁) vs₁) := by
  rw [remove_inference_two k₁ k₂ h]
  rw [updD_other _ _ _ _ (Ne.symm h)]
  exact updD_self _ _ _

theorem ri_two_snd (k₁ k₂ : Var) (h : k₂ ≠ k₁) (vs₁ vs₂ : List Nat)
    (d : Var → List Nat) :
    (remove_inference (some [(k₁, vs₁), (k₂, vs₂)]) d) k₂ =
      List.insertionSort (· ≤ ·) (restoreVals (d k₂) vs₂) := by
  rw [remove_inference_two k₁ k₂ h]
  exact updD_self _ _ _

theorem ri_two_other (k₁ k₂ y : Var) (h : k₂ ≠ k₁) (vs₁ vs₂ : List Nat)
    (d : Var → List Nat) (hy₁ : y ≠ k₁) (hy₂ : y ≠ k₂) :
    (remove_inference (some [(k₁, vs₁), (k₂, vs₂)]) d) y = d y := by
  rw [remove_inference_two k₁ k₂ h, updD_other _ _ _ _ hy₂, updD_other _ _ _ _ hy₁]


theorem dictInsertRec_nested (p q : Var) (h : p ≠ q) (v₁ v₂ : List Nat) :
    dictInsertRec (dictInsertRec [] p v₁) q v₂ = [(p, v₁), (q, v₂)] := by
  rw [show dictInsertRec ([] : List (Var × List Nat)) p v₁ = [(p, v₁)] from rfl]
  exact dictInsertRec_two p q h v₁ v₂

/-- Completeness of the root loop of `backtrack` on the all-different
triangle, by induction over the remaining root trial values.  `P₀, Q₀` are
the original domains of the two non-root variables; the invariant states the
current domains either still carry the original value sets, or have the
certified post-conflict shape (a two-value instance whose second non-root
domain lost one value), which can only arise with at most one trial left. -/
theorem tri_root_loop (r p q : V3) (h3 : triRoles r p q)
    (P₀ Q₀ : List ℕ) (hP₀ : P₀.Nodup) (hQ₀ : Q₀.Nodup) :
    ∀ (ws : List ℕ) (d : V3 → List ℕ),
      ws.Nodup → (d p).Nodup → (d q).Nodup →
      ws.length ≤ P₀.length → ws.length ≤ Q₀.length →
      (((∀ t, t ∈ d p ↔ t ∈ P₀) ∧ (∀ t, t ∈ d q ↔ t ∈ Q₀)) ∨
        (∃ wb ub, wb ∉ ws ∧ wb ≠ ub ∧
          (∀ t, t ∈ P₀ ↔ (t = wb ∨ t = ub)) ∧ (∀ t, t ∈ Q₀ ↔ (t = wb ∨ t = ub)) ∧
          (∀ t, t ∈ d p ↔ (t = wb ∨ t = ub)) ∧ (∀ t, t ∈ d q ↔ t = wb) ∧
          ws.length ≤ 1)) →
      ((∃ w ∈ ws, ∃ x ∈ P₀, ∃ y ∈ Q₀, w ≠ x ∧ w ≠ y ∧ x ≠ y) →
        ∃ res, (tryValues (fun a' d' => backtrackF 3 a' d' cspTri) cspTri r []
            ws d).1 = some (some res) ∧ validTriAssign res = true) ∧
      ((¬ ∃ w ∈ ws, ∃ x ∈ P₀, ∃ y ∈ Q₀, w ≠ x ∧ w ≠ y ∧ x ≠ y) →
        (tryValues (fun a' d' => backtrackF 3 a' d' cspTri) cspTri r []
          ws d).1 = some none) := by
  intro ws
  induction ws with
  | nil =>
    intro d _ _ _ _ _ _
    refine ⟨fun hsol => ?_, fun _ => rfl⟩
    rcases hsol with ⟨w, hw, _⟩
    exact absurd hw (List.not_mem_nil w)
  | cons w ws' ih =>
    intro d hwnd hdp hdq hbP hbQ hstate
    obtain ⟨hwnotin, hwnds⟩ := List.nodup_cons.mp hwnd
    obtain ⟨hrp, hrq, hpq⟩ := triRoles2_ne r p q (triRoles2_left r p q h3)
    have hnbr := tri_nb_root r p q h3
    have hic : is_consistent (btNeighbors cspTri) r w [] = true :=
      is_consistent_nil_assignment _ r w
    have hlp : alookup [(r, w)] p = none := by
      rw [alookup_cons_ne r p w [] hrp, alookup_nil]
    have hlq : alookup [(r, w)] q = none := by
      rw [alookup_cons_ne r q w [] hrq, alookup_nil]
    have hbP' : ws'.length ≤ P₀.length := Nat.le_of_succ_le (by simpa using hbP)
    have hbQ' : ws'.length ≤ Q₀.length := Nat.le_of_succ_le (by simpa using hbQ)
    have htrP : ∀ t, t ∈ d p → t ∈ P₀ := by
      rcases hstate with ⟨hP1, _⟩ | ⟨wb, ub, _, _, hPb, _, hdpb, _, _⟩
      · exact fun t ht => (hP1 t).mp ht
      · exact fun t ht => (hPb t).mpr ((hdpb t).mp ht)
    have htrQ : ∀ t, t ∈ d q → t ∈ Q₀ := by
      rcases hstate with ⟨_, hQ1⟩ | ⟨wb, ub, _, _, _, hQb, _, hdqb, _⟩
      · exact fun t ht => (hQ1 t).mp ht
      · exact fun t ht => (hQb t).mpr (Or.inl ((hdqb t).mp ht))
    have hnosol_of_cert :
        (∀ u ∈ (d p).erase w, ∀ v ∈ (d q).erase w, u = v) →
        ∀ x ∈ P₀, ∀ y ∈ Q₀, ¬(w ≠ x ∧ w ≠ y ∧ x ≠ y) := by
      intro cert
      refine tri_no_current_sol P₀ Q₀ w (d p) (d q) hdp hdq cert ?_
      rcases hstate with ⟨hP1, hQ1⟩ |
        ⟨wb, ub, hwbws, hwbub, hPb, hQb, hdpb, hdqb, _⟩
      · exact Or.inl ⟨hP1, hQ1⟩
      · exact Or.inr ⟨wb, ub,
          fun hh => hwbws (hh ▸ List.mem_cons_self w ws'), hwbub,
          hPb, hQb, hdpb, hdqb⟩
    by_cases hwP : w ∈ d p
    · cases hPe : (d p).erase w with
      | nil =>
        -- the root prune wipes the first non-root domain: immediate conflict
        have hdps : d p = [w] := eq_singleton_of_erase_nil _ w hdp hwP hPe
        have hnosolw : ∀ x ∈ P₀, ∀ y ∈ Q₀, ¬(w ≠ x ∧ w ≠ y ∧ x ≠ y) := by
          intro x hx y hy hcon
          rcases hstate with ⟨hP1, _⟩ | ⟨wb, ub, _, hwbub, _, _, hdpb, _, _⟩
          · have hxw := (hP1 x).mpr hx
            rw [hdps] at hxw
            exact hcon.1 (List.mem_singleton.mp hxw).symm
          · have hwb : wb = w := by
              have hh := (hdpb wb).mpr (Or.inl rfl)
              rw [hdps] at hh
              exact List.mem_singleton.mp hh
            have hub : ub = w := by
              have hh := (hdpb ub).mpr (Or.inr rfl)
              rw [hdps] at hh
              exact List.mem_singleton.mp hh
            exact hwbub (hwb.trans hub.symm)
        have hws' : ws' = [] := by
          rcases hstate with ⟨hP1, _⟩ | ⟨_, _, _, _, _, _, _, _, hlen1⟩
          · have hsub : ∀ t ∈ P₀, t = w := by
              intro t ht
              have hh := (hP1 t).mpr ht
              rw [hdps] at hh
              exact List.mem_singleton.mp hh
            have hle1 := length_le_one_of_subsingleton P₀ w hP₀ hsub
            simp only [List.length_cons] at hbP
            exact List.length_eq_zero.mp (by omega)
          · simp only [List.length_cons] at hlen1
            exact List.length_eq_zero.mp (by omega)
        subst hws'
        have hfc : forward_checking (btNeighbors cspTri) r w [(r, w)] d =
            (none, updD d p []) := by
          rw [forward_checking, hnbr, fcAux_conflict _ _ _ _ _ _ hlp hwP hPe]
        have hstep : tryValues (fun a' d' => backtrackF 3 a' d' cspTri) cspTri r []
            [w] d = (some none, updD d p []) := by
          simp only [tryValues, hic, if_pos, List.nil_append, hfc,
            remove_inference_none_eq]
        rw [hstep]
        refine ⟨fun hsol => ?_, fun _ => rfl⟩
        rcases hsol with ⟨w', hw', x, hx, y, hy, hcon⟩
        rcases List.mem_cons.mp hw' with rfl | hw''
        · exact absurd hcon (hnosolw x hx y hy)
        · exact absurd hw'' (List.not_mem_nil w')
      | cons z zs =>
        by_cases hwQ : w ∈ d q
        · cases hQe : (d q).erase w with
          | nil =>
            -- prune at p succeeds, then the prune at q wipes q's domain
            have hdqs : d q = [w] := eq_singleton_of_erase_nil _ w hdq hwQ hQe
            have hnosolw : ∀ x ∈ P₀, ∀ y ∈ Q₀, ¬(w ≠ x ∧ w ≠ y ∧ x ≠ y) := by
              intro x hx y hy hcon
              rcases hstate with ⟨_, hQ1⟩ | ⟨wb, ub, hwbws, _, _, _, _, hdqb, _⟩
              · have hyw := (hQ1 y).mpr hy
                rw [hdqs] at hyw
                exact hcon.2.1 (List.mem_singleton.mp hyw).symm
              · have hwwb : w = wb := (hdqb w).mp hwQ
                have hmem : wb ∈ w :: ws' := by
                  rw [← hwwb]; exact List.mem_cons_self w ws'
                exact absurd hmem hwbws
            have hws' : ws' = [] := by
              rcases hstate with ⟨_, hQ1⟩ | ⟨_, _, _, _, _, _, _, _, hlen1⟩
              · have hsub : ∀ t ∈ Q₀, t = w := by
                  intro t ht
                  have hh := (hQ1 t).mpr ht
                  rw [hdqs] at hh
                  exact List.mem_singleton.mp hh
                have hle1 := length_le_one_of_subsingleton Q₀ w hQ₀ hsub
                simp only [List.length_cons] at hbQ
                exact List.length_eq_zero.mp (by omega)
              · simp only [List.length_cons] at hlen1
                exact List.length_eq_zero.mp (by omega)
            subst hws'
            have hwQ2 : w ∈ (updD d p (z :: zs)) q := by
              rw [updD_other _ _ _ _ (Ne.symm hpq)]; exact hwQ
            have hQe2 : ((updD d p (z :: zs)) q).erase w = [] := by
              rw [updD_other _ _ _ _ (Ne.symm hpq)]; exact hQe
            have hfc : forward_checking (btNeighbors cspTri) r w [(r, w)] d =
                (none, updD (updD d p (z :: zs)) q []) := by
              rw [forward_checking, hnbr,
                fcAux_prune _ _ _ _ _ _ _ _ hlp hwP hPe,
                fcAux_conflict _ _ _ _ _ _ hlq hwQ2 hQe2]
            have hstep : tryValues (fun a' d' => backtrackF 3 a' d' cspTri) cspTri
                r [] [w] d = (some none, updD (updD d p (z :: zs)) q []) := by
              simp only [tryValues, hic, if_pos, List.nil_append, hfc,
                remove_inference_none_eq]
            rw [hstep]
            refine ⟨fun hsol => ?_, fun _ => rfl⟩
            rcases hsol with ⟨w', hw', x, hx, y, hy, hcon⟩
            rcases List.mem_cons.mp hw' with rfl | hw''
            · exact absurd hcon (hnosolw x hx y hy)
            · exact absurd hw'' (List.not_mem_nil w')
          | cons y ys =>
            -- FLOW1: both prunes succeed, both are recorded
            have hwQ2 : w ∈ (updD d p (z :: zs)) q := by
              rw [updD_other _ _ _ _ (Ne.symm hpq)]; exact hwQ
            have hQe2 : ((updD d p (z :: zs)) q).erase w = y :: ys := by
              rw [updD_other _ _ _ _ (Ne.symm hpq)]; exact hQe
            have hfc : forward_checking (btNeighbors cspTri) r w [(r, w)] d =
                (some [(p, [w]), (q, [w])],
                  updD (updD d p (z :: zs)) q (y :: ys)) := by
              rw [forward_checking, hnbr,
                fcAux_prune _ _ _ _ _ _ _ _ hlp hwP hPe,
                fcAux_prune _ _ _ _ _ _ _ _ hlq hwQ2 hQe2, fcAux_nil,
                dictInsertRec_nested p q hpq]
            have hd2p : (updD (updD d p (z :: zs)) q (y :: ys)) p =
                (d p).erase w := by
              rw [updD_other _ _ _ _ hpq, updD_self]; exact hPe.symm
            have hd2q : (updD (updD d p (z :: zs)) q (y :: ys)) q =
                (d q).erase w := by
              rw [updD_self]; exact hQe.symm
            have hfp : w ∉ (updD (updD d p (z :: zs)) q (y :: ys)) p := by
              rw [hd2p]
              exact fun hh => ((List.Nodup.mem_erase_iff hdp).mp hh).1 rfl
            have hfq : w ∉ (updD (updD d p (z :: zs)) q (y :: ys)) q := by
              rw [hd2q]
              exact fun hh => ((List.Nodup.mem_erase_iff hdq).mp hh).1 rfl
            have hfnp : ((updD (updD d p (z :: zs)) q (y :: ys)) p).Nodup := by
              rw [hd2p]; exact List.Nodup.erase w hdp
            have hfnq : ((updD (updD d p (z :: zs)) q (y :: ys)) q).Nodup := by
              rw [hd2q]; exact List.Nodup.erase w hdq
            rcases tri_frame r p q h3 w (updD (updD d p (z :: zs)) q (y :: ys))
                hfp hfq hfnp hfnq with
              ⟨X, n, u, v, hXn, hu, hv, hwu, hwv, huv, h1⟩ | ⟨cert, hfail⟩
            · obtain ⟨o, dS, hpair⟩ : ∃ o dS,
                  backtrackF 3 [(r, w)] (updD (updD d p (z :: zs)) q (y :: ys))
                    cspTri = (o, dS) := ⟨_, _, rfl⟩
              have ho : o = some (some [(r, w), (X, u), (n, v)]) := by
                rw [hpair] at h1; exact h1
              subst ho
              have hstep : tryValues (fun a' d' => backtrackF 3 a' d' cspTri)
                  cspTri r [] (w :: ws') d =
                  (some (some [(r, w), (X, u), (n, v)]), dS) := by
                simp only [tryValues, hic, if_pos, List.nil_append, hfc, hpair]
              rw [hstep]
              constructor
              · intro _
                exact ⟨[(r, w), (X, u), (n, v)], rfl,
                  validTri_of_roles r p q X n h3 hXn w u v hwu hwv huv⟩
              · intro hnsol
                exfalso
                rcases hXn with ⟨rfl, rfl⟩ | ⟨rfl, rfl⟩
                · exact hnsol ⟨w, List.mem_cons_self w ws',
                    u, htrP u (List.mem_of_mem_erase (hd2p ▸ hu)),
                    v, htrQ v (List.mem_of_mem_erase (hd2q ▸ hv)), hwu, hwv, huv⟩
                · exact hnsol ⟨w, List.mem_cons_self w ws',
                    v, htrP v (List.mem_of_mem_erase (hd2p ▸ hv)),
                    u, htrQ u (List.mem_of_mem_erase (hd2q ▸ hu)),
                    hwv, hwu, Ne.symm huv⟩
            · have hnosolw := hnosol_of_cert (fun u' hu' v' hv' =>
                cert u' (by rw [hd2p]; exact hu') v' (by rw [hd2q]; exact hv'))
              rcases hfail with heq | ⟨u, hpu, hqu, huw, heq⟩
              · -- FLOW1 fail, domains unchanged: undo restores the originals
                have hstep : tryValues (fun a' d' => backtrackF 3 a' d' cspTri)
                    cspTri r [] (w :: ws') d =
                    tryValues (fun a' d' => backtrackF 3 a' d' cspTri) cspTri r []
                      ws' (remove_inference (some [(p, [w]), (q, [w])])
                        (updD (updD d p (z :: zs)) q (y :: ys))) := by
                  simp only [tryValues, hic, if_pos, List.nil_append, hfc, heq]
                rw [hstep]
                rcases hstate with ⟨hP1, hQ1⟩ | ⟨_, _, _, _, _, _, _, _, hlen1⟩
                · have hup : ∀ t, t ∈ (remove_inference
                      (some [(p, [w]), (q, [w])])
                      (updD (updD d p (z :: zs)) q (y :: ys))) p ↔ t ∈ P₀ := by
                    intro t
                    rw [ri_two_fst p q (Ne.symm hpq), hd2p,
                      mem_sort_restore _ w
                        (fun hh => ((List.Nodup.mem_erase_iff hdp).mp hh).1 rfl) t]
                    constructor
                    · rintro (hh | rfl)
                      · exact (hP1 t).mp (List.mem_of_mem_erase hh)
                      · exact (hP1 t).mp hwP
                    · intro ht
                      by_cases htw : t = w
                      · exact Or.inr htw
                      · exact Or.inl ((List.mem_erase_of_ne htw).mpr ((hP1 t).mpr ht))
                  have huq : ∀ t, t ∈ (remove_inference
                      (some [(p, [w]), (q, [w])])
                      (updD (updD d p (z :: zs)) q (y :: ys))) q ↔ t ∈ Q₀ := by
                    intro t
                    rw [ri_two_snd p q (Ne.symm hpq), hd2q,
                      mem_sort_restore _ w
                        (fun hh => ((List.Nodup.mem_erase_iff hdq).mp hh).1 rfl) t]
                    constructor
                    · rintro (hh | rfl)
                      · exact (hQ1 t).mp (List.mem_of_mem_erase hh)
                      · exact (hQ1 t).mp hwQ
                    · intro ht
                      by_cases htw : t = w
                      · exact Or.inr htw
                      · exact Or.inl ((List.mem_erase_of_ne htw).mpr ((hQ1 t).mpr ht))
                  have hnp : ((remove_inference (some [(p, [w]), (q, [w])])
                      (updD (updD d p (z :: zs)) q (y :: ys))) p).Nodup := by
                    rw [ri_two_fst p q (Ne.symm hpq), hd2p]
                    exact nodup_sort_restore _ w
                      (fun hh => ((List.Nodup.mem_erase_iff hdp).mp hh).1 rfl)
                      (List.Nodup.erase w hdp)
                  have hnq : ((remove_inference (some [(p, [w]), (q, [w])])
                      (updD (updD d p (z :: zs)) q (y :: ys))) q).Nodup := by
                    rw [ri_two_snd p q (Ne.symm hpq), hd2q]
                    exact nodup_sort_restore _ w
                      (fun hh => ((List.Nodup.mem_erase_iff hdq).mp hh).1 rfl)
                      (List.Nodup.erase w hdq)
                  obtain ⟨ihA, ihB⟩ := ih (remove_inference
                      (some [(p, [w]), (q, [w])])
                      (updD (updD d p (z :: zs)) q (y :: ys)))
                    hwnds hnp hnq hbP' hbQ' (Or.inl ⟨hup, huq⟩)
                  constructor
                  · intro hsol
                    rcases hsol with ⟨w', hw', x, hx, y, hy, hcon⟩
                    rcases List.mem_cons.mp hw' with rfl | hw''
                    · exact absurd hcon (hnosolw x hx y hy)
                    · exact ihA ⟨w', hw'', x, hx, y, hy, hcon⟩
                  · intro hnsol
                    refine ihB (fun hh => ?_)
                    rcases hh with ⟨w', hw', x, hx, y, hy, hcon⟩
                    exact hnsol ⟨w', List.mem_cons_of_mem w hw', x, hx, y, hy, hcon⟩
                · have hws' : ws' = [] := by
                    simp only [List.length_cons] at hlen1
                    exact List.length_eq_zero.mp (by omega)
                  subst hws'
                  refine ⟨fun hsol => ?_, fun _ => rfl⟩
                  rcases hsol with ⟨w', hw', x, hx, y, hy, hcon⟩
                  rcases List.mem_cons.mp hw' with rfl | hw''
                  · exact absurd hcon (hnosolw x hx y hy)
                  · exact absurd hw'' (List.not_mem_nil w')
              · -- FLOW1 conflict loss: both current domains were [u]
                have hpu' : (d p).erase w = [u] := by rw [← hd2p]; exact hpu
                have hqu' : (d q).erase w = [u] := by rw [← hd2q]; exact hqu
                have hstep : tryValues (fun a' d' => backtrackF 3 a' d' cspTri)
                    cspTri r [] (w :: ws') d =
                    tryValues (fun a' d' => backtrackF 3 a' d' cspTri) cspTri r []
                      ws' (remove_inference (some [(p, [w]), (q, [w])])
                        (updD (updD (updD d p (z :: zs)) q (y :: ys)) q [])) := by
                  simp only [tryValues, hic, if_pos, List.nil_append, hfc, heq]
                rw [hstep]
                by_cases hwse : ws' = []
                · subst hwse
                  refine ⟨fun hsol => ?_, fun _ => rfl⟩
                  rcases hsol with ⟨w', hw', x, hx, y, hy, hcon⟩
                  rcases List.mem_cons.mp hw' with rfl | hw''
                  · exact absurd hcon (hnosolw x hx y hy)
                  · exact absurd hw'' (List.not_mem_nil w')
                · rcases hstate with ⟨hP1, hQ1⟩ | ⟨_, _, _, _, _, _, _, _, hlen1⟩
                  · -- enter the certified post-conflict shape
                    have hPset : ∀ t, t ∈ P₀ ↔ (t = w ∨ t = u) := by
                      intro t
                      rw [← hP1 t]
                      constructor
                      · intro ht
                        by_cases htw : t = w
                        · exact Or.inl htw
                        · right
                          have hh := (List.mem_erase_of_ne htw).mpr ht
                          rw [hpu'] at hh
                          exact List.mem_singleton.mp hh
                      · rintro (rfl | rfl)
                        · exact hwP
                        · exact List.mem_of_mem_erase
                            (by rw [hpu']; exact List.mem_cons_self t [])
                    have hQset : ∀ t, t ∈ Q₀ ↔ (t = w ∨ t = u) := by
                      intro t
                      rw [← hQ1 t]
                      constructor
                      · intro ht
                        by_cases htw : t = w
                        · exact Or.inl htw
                        · right
                          have hh := (List.mem_erase_of_ne htw).mpr ht
                          rw [hqu'] at hh
                          exact List.mem_singleton.mp hh
                      · rintro (rfl | rfl)
                        · exact hwQ
                        · exact List.mem_of_mem_erase
                            (by rw [hqu']; exact List.mem_cons_self t [])
                    have hwu' : w ∉ ([u] : List ℕ) :=
                      fun hh => huw (List.mem_singleton.mp hh)
                    have hslotp : (updD (updD (updD d p (z :: zs)) q (y :: ys))
                        q []) p = [u] := by
                      rw [updD_other _ _ _ _ hpq]; exact hpu
                    have hsp : ∀ t, t ∈ (remove_inference
                        (some [(p, [w]), (q, [w])])
                        (updD (updD (updD d p (z :: zs)) q (y :: ys)) q [])) p ↔
                        (t = w ∨ t = u) := by
                      intro t
                      rw [ri_two_fst p q (Ne.symm hpq), hslotp,
                        mem_sort_restore [u] w hwu' t, List.mem_singleton]
                      exact or_comm
                    have hsq : ∀ t, t ∈ (remove_inference
                        (some [(p, [w]), (q, [w])])
                        (updD (updD (updD d p (z :: zs)) q (y :: ys)) q [])) q ↔
                        t = w := by
                      intro t
                      rw [ri_two_snd p q (Ne.symm hpq), updD_self]
                      rw [show List.insertionSort (· ≤ ·) (restoreVals [] [w]) =
                        [w] from rfl]
                      exact List.mem_singleton
                    have hnsp : ((remove_inference (some [(p, [w]), (q, [w])])
                        (updD (updD (updD d p (z :: zs)) q (y :: ys)) q [])) p).Nodup := by
                      rw [ri_two_fst p q (Ne.symm hpq), hslotp]
                      exact nodup_sort_restore [u] w hwu' (List.nodup_singleton u)
                    have hnsq : ((remove_inference (some [(p, [w]), (q, [w])])
                        (updD (updD (updD d p (z :: zs)) q (y :: ys)) q [])) q).Nodup := by
                      rw [ri_two_snd p q (Ne.symm hpq), updD_self]
                      rw [show List.insertionSort (· ≤ ·) (restoreVals [] [w]) =
                        [w] from rfl]
                      exact List.nodup_singleton w
                    have hlen2 : ws'.length ≤ 1 := by
                      have hP2 : P₀.length ≤ 2 :=
                        length_le_two_of_subpair P₀ w u hP₀
                          (fun t ht => (hPset t).mp ht)
                      simp only [List.length_cons] at hbP
                      omega
                    obtain ⟨ihA, ihB⟩ := ih (remove_inference
                        (some [(p, [w]), (q, [w])])
                        (updD (updD (updD d p (z :: zs)) q (y :: ys)) q []))
                      hwnds hnsp hnsq hbP' hbQ'
                      (Or.inr ⟨w, u, hwnotin, huw, hPset, hQset, hsp, hsq, hlen2⟩)
                    constructor
                    · intro hsol
                      rcases hsol with ⟨w', hw', x, hx, y, hy, hcon⟩
                      rcases List.mem_cons.mp hw' with rfl | hw''
                      · exact absurd hcon (hnosolw x hx y hy)
                      · exact ihA ⟨w', hw'', x, hx, y, hy, hcon⟩
                    · intro hnsol
                      refine ihB (fun hh => ?_)
                      rcases hh with ⟨w', hw', x, hx, y, hy, hcon⟩
                      exact hnsol ⟨w', List.mem_cons_of_mem w hw', x, hx, y, hy, hcon⟩
                  · exfalso
                    simp only [List.length_cons] at hlen1
                    exact hwse (List.length_eq_zero.mp (by omega))
        · -- FLOW2: prune at p recorded, w absent from q's domain
          have hwQ2 : w ∉ (updD d p (z :: zs)) q := by
            rw [updD_other _ _ _ _ (Ne.symm hpq)]; exact hwQ
          have hfc : forward_checking (btNeighbors cspTri) r w [(r, w)] d =
              (some [(p, [w])], updD d p (z :: zs)) := by
            rw [forward_checking, hnbr,
              fcAux_prune _ _ _ _ _ _ _ _ hlp hwP hPe,
              fcAux_absent _ _ _ _ _ _ hlq hwQ2, fcAux_nil]
            rfl
          have hd2p : (updD d p (z :: zs)) p = (d p).erase w := by
            rw [updD_self]; exact hPe.symm
          have hd2q : (updD d p (z :: zs)) q = (d q).erase w := by
            rw [updD_other _ _ _ _ (Ne.symm hpq)]
            exact (List.erase_of_not_mem hwQ).symm
          have hfp : w ∉ (updD d p (z :: zs)) p := by
            rw [hd2p]
            exact fun hh => ((List.Nodup.mem_erase_iff hdp).mp hh).1 rfl
          have hfq : w ∉ (updD d p (z :: zs)) q := by
            rw [hd2q]
            exact fun hh => ((List.Nodup.mem_erase_iff hdq).mp hh).1 rfl
          have hfnp : ((updD d p (z :: zs)) p).Nodup := by
            rw [hd2p]; exact List.Nodup.erase w hdp
          have hfnq : ((updD d p (z :: zs)) q).Nodup := by
            rw [hd2q]; exact List.Nodup.erase w hdq
          rcases tri_frame r p q h3 w (updD d p (z :: zs)) hfp hfq hfnp hfnq with
            ⟨X, n, u, v, hXn, hu, hv, hwu, hwv, huv, h1⟩ | ⟨cert, hfail⟩
          · obtain ⟨o, dS, hpair⟩ : ∃ o dS,
                backtrackF 3 [(r, w)] (updD d p (z :: zs)) cspTri = (o, dS) :=
              ⟨_, _, rfl⟩
            have ho : o = some (some [(r, w), (X, u), (n, v)]) := by
              rw [hpair] at h1; exact h1
            subst ho
            have hstep : tryValues (fun a' d' => backtrackF 3 a' d' cspTri)
                cspTri r [] (w :: ws') d =
                (some (some [(r, w), (X, u), (n, v)]), dS) := by
              simp only [tryValues, hic, if_pos, List.nil_append, hfc, hpair]
            rw [hstep]
            constructor
            · intro _
              exact ⟨[(r, w), (X, u), (n, v)], rfl,
                validTri_of_roles r p q X n h3 hXn w u v hwu hwv huv⟩
            · intro hnsol
              exfalso
              rcases hXn with ⟨rfl, rfl⟩ | ⟨rfl, rfl⟩
              · exact hnsol ⟨w, List.mem_cons_self w ws',
                  u, htrP u (List.mem_of_mem_erase (hd2p ▸ hu)),
                  v, htrQ v (List.mem_of_mem_erase (hd2q ▸ hv)), hwu, hwv, huv⟩
              · exact hnsol ⟨w, List.mem_cons_self w ws',
                  v, htrP v (List.mem_of_mem_erase (hd2p ▸ hv)),
                  u, htrQ u (List.mem_of_mem_erase (hd2q ▸ hu)),
                  hwv, hwu, Ne.symm huv⟩
          · have hnosolw := hnosol_of_cert (fun u' hu' v' hv' =>
              cert u' (by rw [hd2p]; exact hu') v' (by rw [hd2q]; exact hv'))
            rcases hfail with heq | ⟨u, hpu, hqu, huw, heq⟩
            · have hstep : tryValues (fun a' d' => backtrackF 3 a' d' cspTri)
                  cspTri r [] (w :: ws') d =
                  tryValues (fun a' d' => backtrackF 3 a' d' cspTri) cspTri r []
                    ws' (remove_inference (some [(p, [w])])
                      (updD d p (z :: zs))) := by
                simp only [tryValues, hic, if_pos, List.nil_append, hfc, heq]
              rw [hstep]
              rcases hstate with ⟨hP1, hQ1⟩ | ⟨_, _, _, _, _, _, _, _, hlen1⟩
              · have hup : ∀ t, t ∈ (remove_inference (some [(p, [w])])
                    (updD d p (z :: zs))) p ↔ t ∈ P₀ := by
                  intro t
                  rw [ri_one_self p [w] _, hd2p,
                    mem_sort_restore _ w
                      (fun hh => ((List.Nodup.mem_erase_iff hdp).mp hh).1 rfl) t]
                  constructor
                  · rintro (hh | rfl)
                    · exact (hP1 t).mp (List.mem_of_mem_erase hh)
                    · exact (hP1 t).mp hwP
                  · intro ht
                    by_cases htw : t = w
                    · exact Or.inr htw
                    · exact Or.inl ((List.mem_erase_of_ne htw).mpr ((hP1 t).mpr ht))
                have huq : ∀ t, t ∈ (remove_inference (some [(p, [w])])
                    (updD d p (z :: zs))) q ↔ t ∈ Q₀ := by
                  intro t
                  rw [ri_one_other p q [w] _ (Ne.symm hpq), hd2q,
                    List.erase_of_not_mem hwQ]
                  exact hQ1 t
                have hnp : ((remove_inference (some [(p, [w])])
                    (updD d p (z :: zs))) p).Nodup := by
                  rw [ri_one_self p [w] _, hd2p]
                  exact nodup_sort_restore _ w
                    (fun hh => ((List.Nodup.mem_erase_iff hdp).mp hh).1 rfl)
                    (List.Nodup.erase w hdp)
                have hnq : ((remove_inference (some [(p, [w])])
                    (updD d p (z :: zs))) q).Nodup := by
                  rw [ri_one_other p q [w] _ (Ne.symm hpq), hd2q,
                    List.erase_of_not_mem hwQ]
                  exact hdq
                obtain ⟨ihA, ihB⟩ := ih (remove_inference (some [(p, [w])])
                    (updD d p (z :: zs))) hwnds hnp hnq hbP' hbQ'
                  (Or.inl ⟨hup, huq⟩)
                constructor
                · intro hsol
                  rcases hsol with ⟨w', hw', x, hx, y, hy, hcon⟩
                  rcases List.mem_cons.mp hw' with rfl | hw''
                  · exact absurd hcon (hnosolw x hx y hy)
                  · exact ihA ⟨w', hw'', x, hx, y, hy, hcon⟩
                · intro hnsol
                  refine ihB (fun hh => ?_)
                  rcases hh with ⟨w', hw', x, hx, y, hy, hcon⟩
                  exact hnsol ⟨w', List.mem_cons_of_mem w hw', x, hx, y, hy, hcon⟩
              · have hws' : ws' = [] := by
                  simp only [List.length_cons] at hlen1
                  exact List.length_eq_zero.mp (by omega)
                subst hws'
                refine ⟨fun hsol => ?_, fun _ => rfl⟩
                rcases hsol with ⟨w', hw', x, hx, y, hy, hcon⟩
                rcases List.mem_cons.mp hw' with rfl | hw''
                · exact absurd hcon (hnosolw x hx y hy)
                · exact absurd hw'' (List.not_mem_nil w')
            · -- FLOW2 loss: q's current domain [u] is the original q domain
              have hqu' : (d q).erase w = [u] := by rw [← hd2q]; exact hqu
              have hdq1 : d q = [u] := by
                rw [← List.erase_of_not_mem hwQ]; exact hqu'
              have hstep : tryValues (fun a' d' => backtrackF 3 a' d' cspTri)
                  cspTri r [] (w :: ws') d =
                  tryValues (fun a' d' => backtrackF 3 a' d' cspTri) cspTri r []
                    ws' (remove_inference (some [(p, [w])])
                      (updD (updD d p (z :: zs)) q [])) := by
                simp only [tryValues, hic, if_pos, List.nil_append, hfc, heq]
              rw [hstep]
              have hws' : ws' = [] := by
                rcases hstate with ⟨_, hQ1⟩ | ⟨_, _, _, _, _, _, _, _, hlen1⟩
                · have hsub : ∀ t ∈ Q₀, t = u := by
                    intro t ht
                    have hh := (hQ1 t).mpr ht
                    rw [hdq1] at hh
                    exact List.mem_singleton.mp hh
                  have hle1 := length_le_one_of_subsingleton Q₀ u hQ₀ hsub
                  simp only [List.length_cons] at hbQ
                  exact List.length_eq_zero.mp (by omega)
                · simp only [List.length_cons] at hlen1
                  exact List.length_eq_zero.mp (by omega)
              subst hws'
              refine ⟨fun hsol => ?_, fun _ => rfl⟩
              rcases hsol with ⟨w', hw', x, hx, y, hy, hcon⟩
              rcases List.mem_cons.mp hw' with rfl | hw''
              · exact absurd hcon (hnosolw x hx y hy)
              · exact absurd hw'' (List.not_mem_nil w')
    · by_cases hwQ : w ∈ d q
      · cases hQe : (d q).erase w with
        | nil =>
          -- w absent from p's domain; the prune at q wipes q's domain
          have hdqs : d q = [w] := eq_singleton_of_erase_nil _ w hdq hwQ hQe
          have hnosolw : ∀ x ∈ P₀, ∀ y ∈ Q₀, ¬(w ≠ x ∧ w ≠ y ∧ x ≠ y) := by
            intro x hx y hy hcon
            rcases hstate with ⟨_, hQ1⟩ | ⟨wb, ub, hwbws, _, _, _, _, hdqb, _⟩
            · have hyw := (hQ1 y).mpr hy
              rw [hdqs] at hyw
              exact hcon.2.1 (List.mem_singleton.mp hyw).symm
            · have hwwb : w = wb := (hdqb w).mp hwQ
              have hmem : wb ∈ w :: ws' := by
                rw [← hwwb]; exact List.mem_cons_self w ws'
              exact absurd hmem hwbws
          have hws' : ws' = [] := by
            rcases hstate with ⟨_, hQ1⟩ | ⟨_, _, _, _, _, _, _, _, hlen1⟩
            · have hsub : ∀ t ∈ Q₀, t = w := by
                intro t ht
                have hh := (hQ1 t).mpr ht
                rw [hdqs] at hh
                exact List.mem_singleton.mp hh
              have hle1 := length_le_one_of_subsingleton Q₀ w hQ₀ hsub
              simp only [List.length_cons] at hbQ
              exact List.length_eq_zero.mp (by omega)
            · simp only [List.length_cons] at hlen1
              exact List.length_eq_zero.mp (by omega)
          subst hws'
          have hfc : forward_checking (btNeighbors cspTri) r w [(r, w)] d =
              (none, updD d q []) := by
            rw [forward_checking, hnbr, fcAux_absent _ _ _ _ _ _ hlp hwP,
              fcAux_conflict _ _ _ _ _ _ hlq hwQ hQe]
          have hstep : tryValues (fun a' d' => backtrackF 3 a' d' cspTri) cspTri
              r [] [w] d = (some none, updD d q []) := by
            simp only [tryValues, hic, if_pos, List.nil_append, hfc,
              remove_inference_none_eq]
          rw [hstep]
          refine ⟨fun hsol => ?_, fun _ => rfl⟩
          rcases hsol with ⟨w', hw', x, hx, y, hy, hcon⟩
          rcases List.mem_cons.mp hw' with rfl | hw''
          · exact absurd hcon (hnosolw x hx y hy)
          · exact absurd hw'' (List.not_mem_nil w')
        | cons y ys =>
          -- FLOW3: only the prune at q is recorded
          have hfc : forward_checking (btNeighbors cspTri) r w [(r, w)] d =
              (some [(q, [w])], updD d q (y :: ys)) := by
            rw [forward_checking, hnbr, fcAux_absent _ _ _ _ _ _ hlp hwP,
              fcAux_prune _ _ _ _ _ _ _ _ hlq hwQ hQe, fcAux_nil]
            rfl
          have hd2p : (updD d q (y :: ys)) p = (d p).erase w := by
            rw [updD_other _ _ _ _ hpq]
            exact (List.erase_of_not_mem hwP).symm
          have hd2q : (updD d q (y :: ys)) q = (d q).erase w := by
            rw [updD_self]; exact hQe.symm
          have hfp : w ∉ (updD d q (y :: ys)) p := by
            rw [hd2p]
            exact fun hh => ((List.Nodup.mem_erase_iff hdp).mp hh).1 rfl
          have hfq : w ∉ (updD d q (y :: ys)) q := by
            rw [hd2q]
            exact fun hh => ((List.Nodup.mem_erase_iff hdq).mp hh).1 rfl
          have hfnp : ((updD d q (y :: ys)) p).Nodup := by
            rw [hd2p]; exact List.Nodup.erase w hdp
          have hfnq : ((updD d q (y :: ys)) q).Nodup := by
            rw [hd2q]; exact List.Nodup.erase w hdq
          rcases tri_frame r p q h3 w (updD d q (y :: ys)) hfp hfq hfnp hfnq with
            ⟨X, n, u, v, hXn, hu, hv, hwu, hwv, huv, h1⟩ | ⟨cert, hfail⟩
          · obtain ⟨o, dS, hpair⟩ : ∃ o dS,
                backtrackF 3 [(r, w)] (updD d q (y :: ys)) cspTri = (o, dS) :=
              ⟨_, _, rfl⟩
            have ho : o = some (some [(r, w), (X, u), (n, v)]) := by
              rw [hpair] at h1; exact h1
            subst ho
            have hstep : tryValues (fun a' d' => backtrackF 3 a' d' cspTri)
                cspTri r [] (w :: ws') d =
                (some (some [(r, w), (X, u), (n, v)]), dS) := by
              simp only [tryValues, hic, if_pos, List.nil_append, hfc, hpair]
            rw [hstep]
            constructor
            · intro _
              exact ⟨[(r, w), (X, u), (n, v)], rfl,
                validTri_of_roles r p q X n h3 hXn w u v hwu hwv huv⟩
            · intro hnsol
              exfalso
              rcases hXn with ⟨rfl, rfl⟩ | ⟨rfl, rfl⟩
              · exact hnsol ⟨w, List.mem_cons_self w ws',
                  u, htrP u (List.mem_of_mem_erase (hd2p ▸ hu)),
                  v, htrQ v (List.mem_of_mem_erase (hd2q ▸ hv)), hwu, hwv, huv⟩
              · exact hnsol ⟨w, List.mem_cons_self w ws',
                  v, htrP v (List.mem_of_mem_erase (hd2p ▸ hv)),
                  u, htrQ u (List.mem_of_mem_erase (hd2q ▸ hu)),
                  hwv, hwu, Ne.symm huv⟩
          · have hnosolw := hnosol_of_cert (fun u' hu' v' hv' =>
              cert u' (by rw [hd2p]; exact hu') v' (by rw [hd2q]; exact hv'))
            rcases hfail with heq | ⟨u, hpu, hqu, huw, heq⟩
            · have hstep : tryValues (fun a' d' => backtrackF 3 a' d' cspTri)
                  cspTri r [] (w :: ws') d =
                  tryValues (fun a' d' => backtrackF 3 a' d' cspTri) cspTri r []
                    ws' (remove_inference (some [(q, [w])])
                      (updD d q (y :: ys))) := by
                simp only [tryValues, hic, if_pos, List.nil_append, hfc, heq]
              rw [hstep]
              rcases hstate with ⟨hP1, hQ1⟩ | ⟨_, _, _, _, _, _, _, _, hlen1⟩
              · have hup : ∀ t, t ∈ (remove_inference (some [(q, [w])])
                    (updD d q (y :: ys))) p ↔ t ∈ P₀ := by
                  intro t
                  rw [ri_one_other q p [w] _ hpq, hd2p,
                    List.erase_of_not_mem hwP]
                  exact hP1 t
                have huq : ∀ t, t ∈ (remove_inference (some [(q, [w])])
                    (updD d q (y :: ys))) q ↔ t ∈ Q₀ := by
                  intro t
                  rw [ri_one_self q [w] _, hd2q,
                    mem_sort_restore _ w
                      (fun hh => ((List.Nodup.mem_erase_iff hdq).mp hh).1 rfl) t]
                  constructor
                  · rintro (hh | rfl)
                    · exact (hQ1 t).mp (List.mem_of_mem_erase hh)
                    · exact (hQ1 t).mp hwQ
                  · intro ht
                    by_cases htw : t = w
                    · exact Or.inr htw
                    · exact Or.inl ((List.mem_erase_of_ne htw).mpr ((hQ1 t).mpr ht))
                have hnp : ((remove_inference (some [(q, [w])])
                    (updD d q (y :: ys))) p).Nodup := by
                  rw [ri_one_other q p [w] _ hpq, hd2p,
                    List.erase_of_not_mem hwP]
                  exact hdp
                have hnq : ((remove_inference (some [(q, [w])])
                    (updD d q (y :: ys))) q).Nodup := by
                  rw [ri_one_self q [w] _, hd2q]
                  exact nodup_sort_restore _ w
                    (fun hh => ((List.Nodup.mem_erase_iff hdq).mp hh).1 rfl)
                    (List.Nodup.erase w hdq)
                obtain ⟨ihA, ihB⟩ := ih (remove_inference (some [(q, [w])])
                    (updD d q (y :: ys))) hwnds hnp hnq hbP' hbQ'
                  (Or.inl ⟨hup, huq⟩)
                constructor
                · intro hsol
                  rcases hsol with ⟨w', hw', x, hx, y, hy, hcon⟩
                  rcases List.mem_cons.mp hw' with rfl | hw''
                  · exact absurd hcon (hnosolw x hx y hy)
                  · exact ihA ⟨w', hw'', x, hx, y, hy, hcon⟩
                · intro hnsol
                  refine ihB (fun hh => ?_)
                  rcases hh with ⟨w', hw', x, hx, y, hy, hcon⟩
                  exact hnsol ⟨w', List.mem_cons_of_mem w hw', x, hx, y, hy, hcon⟩
              · have hws' : ws' = [] := by
                  simp only [List.length_cons] at hlen1
                  exact List.length_eq_zero.mp (by omega)
                subst hws'
                refine ⟨fun hsol => ?_, fun _ => rfl⟩
                rcases hsol with ⟨w', hw', x, hx, y, hy, hcon⟩
                rcases List.mem_cons.mp hw' with rfl | hw''
                · exact absurd hcon (hnosolw x hx y hy)
                · exact absurd hw'' (List.not_mem_nil w')
            · -- FLOW3 loss: p's current domain [u] is the original p domain
              have hpu' : (d p).erase w = [u] := by rw [← hd2p]; exact hpu
              have hdp1 : d p = [u] := by
                rw [← List.erase_of_not_mem hwP]; exact hpu'
              have hstep : tryValues (fun a' d' => backtrackF 3 a' d' cspTri)
                  cspTri r [] (w :: ws') d =
                  tryValues (fun a' d' => backtrackF 3 a' d' cspTri) cspTri r []
                    ws' (remove_inference (some [(q, [w])])
                      (updD (updD d q (y :: ys)) q [])) := by
                simp only [tryValues, hic, if_pos, List.nil_append, hfc, heq]
              rw [hstep]
              have hws' : ws' = [] := by
                rcases hstate with ⟨hP1, _⟩ | ⟨_, _, _, _, _, _, _, _, hlen1⟩
                · have hsub : ∀ t ∈ P₀, t = u := by
                    intro t ht
                    have hh := (hP1 t).mpr ht
                    rw [hdp1] at hh
                    exact List.mem_singleton.mp hh
                  have hle1 := length_le_one_of_subsingleton P₀ u hP₀ hsub
                  simp only [List.length_cons] at hbP
                  exact List.length_eq_zero.mp (by omega)
                · simp only [List.length_cons] at hlen1
                  exact List.length_eq_zero.mp (by omega)
              subst hws'
              refine ⟨fun hsol => ?_, fun _ => rfl⟩
              rcases hsol with ⟨w', hw', x, hx, y, hy, hcon⟩
              rcases List.mem_cons.mp hw' with rfl | hw''
              · exact absurd hcon (hnosolw x hx y hy)
              · exact absurd hw'' (List.not_mem_nil w')
      · -- FLOW4: w occurs in neither domain; nothing is pruned or recorded
        have hfc : forward_checking (btNeighbors cspTri) r w [(r, w)] d =
            (some [], d) := by
          rw [forward_checking, hnbr, fcAux_absent _ _ _ _ _ _ hlp hwP,
            fcAux_absent _ _ _ _ _ _ hlq hwQ, fcAux_nil]
        have hd2p : d p = (d p).erase w := (List.erase_of_not_mem hwP).symm
        have hd2q : d q = (d q).erase w := (List.erase_of_not_mem hwQ).symm
        rcases tri_frame r p q h3 w d hwP hwQ hdp hdq with
          ⟨X, n, u, v, hXn, hu, hv, hwu, hwv, huv, h1⟩ | ⟨cert, hfail⟩
        · obtain ⟨o, dS, hpair⟩ : ∃ o dS,
              backtrackF 3 [(r, w)] d cspTri = (o, dS) := ⟨_, _, rfl⟩
          have ho : o = some (some [(r, w), (X, u), (n, v)]) := by
            rw [hpair] at h1; exact h1
          subst ho
          have hstep : tryValues (fun a' d' => backtrackF 3 a' d' cspTri)
              cspTri r [] (w :: ws') d =
              (some (some [(r, w), (X, u), (n, v)]), dS) := by
            simp only [tryValues, hic, if_pos, List.nil_append, hfc, hpair]
          rw [hstep]
          constructor
          · intro _
            exact ⟨[(r, w), (X, u), (n, v)], rfl,
              validTri_of_roles r p q X n h3 hXn w u v hwu hwv huv⟩
          · intro hnsol
            exfalso
            rcases hXn with ⟨rfl, rfl⟩ | ⟨rfl, rfl⟩
            · exact hnsol ⟨w, List.mem_cons_self w ws',
                u, htrP u hu, v, htrQ v hv, hwu, hwv, huv⟩
            · exact hnsol ⟨w, List.mem_cons_self w ws',
                v, htrP v hv, u, htrQ u hu, hwv, hwu, Ne.symm huv⟩
        · have hnosolw := hnosol_of_cert (fun u' hu' v' hv' =>
            cert u' (by rw [← hd2p] at hu'; exact hu')
              v' (by rw [← hd2q] at hv'; exact hv'))
          rcases hfail with heq | ⟨u, hpu, hqu, huw, heq⟩
          · have hstep : tryValues (fun a' d' => backtrackF 3 a' d' cspTri)
                cspTri r [] (w :: ws') d =
                tryValues (fun a' d' => backtrackF 3 a' d' cspTri) cspTri r []
                  ws' (remove_inference (some []) d) := by
              simp only [tryValues, hic, if_pos, List.nil_append, hfc, heq]
            rw [hstep]
            rcases hstate with ⟨hP1, hQ1⟩ | ⟨_, _, _, _, _, _, _, _, hlen1⟩
            · have hre : remove_inference (some ([] : List (V3 × List ℕ))) d = d :=
                remove_inference_nil_rec d
              obtain ⟨ihA, ihB⟩ := ih (remove_inference (some []) d) hwnds
                (by rw [hre]; exact hdp) (by rw [hre]; exact hdq) hbP' hbQ'
                (Or.inl ⟨by rw [hre]; exact hP1, by rw [hre]; exact hQ1⟩)
              constructor
              · intro hsol
                rcases hsol with ⟨w', hw', x, hx, y, hy, hcon⟩
                rcases List.mem_cons.mp hw' with rfl | hw''
                · exact absurd hcon (hnosolw x hx y hy)
                · exact ihA ⟨w', hw'', x, hx, y, hy, hcon⟩
              · intro hnsol
                refine ihB (fun hh => ?_)
                rcases hh with ⟨w', hw', x, hx, y, hy, hcon⟩
                exact hnsol ⟨w', List.mem_cons_of_mem w hw', x, hx, y, hy, hcon⟩
            · have hws' : ws' = [] := by
                simp only [List.length_cons] at hlen1
                exact List.length_eq_zero.mp (by omega)
              subst hws'
              refine ⟨fun hsol => ?_, fun _ => rfl⟩
              rcases hsol with ⟨w', hw', x, hx, y, hy, hcon⟩
              rcases List.mem_cons.mp hw' with rfl | hw''
              · exact absurd hcon (hnosolw x hx y hy)
              · exact absurd hw'' (List.not_mem_nil w')
          · -- FLOW4 loss: p's current domain [u] is the original p domain
            have hdp1 : d p = [u] := hpu
            have hstep : tryValues (fun a' d' => backtrackF 3 a' d' cspTri)
                cspTri r [] (w :: ws') d =
                tryValues (fun a' d' => backtrackF 3 a' d' cspTri) cspTri r []
                  ws' (remove_inference (some []) (updD d q [])) := by
              simp only [tryValues, hic, if_pos, List.nil_append, hfc, heq]
            rw [hstep]
            have hws' : ws' = [] := by
              rcases hstate with ⟨hP1, _⟩ | ⟨_, _, _, _, _, _, _, _, hlen1⟩
              · have hsub : ∀ t ∈ P₀, t = u := by
                  intro t ht
                  have hh := (hP1 t).mpr ht
                  rw [hdp1] at hh
                  exact List.mem_singleton.mp hh
                have hle1 := length_le_one_of_subsingleton P₀ u hP₀ hsub
                simp only [List.length_cons] at hbP
                exact List.length_eq_zero.mp (by omega)
              · simp only [List.length_cons] at hlen1
                exact List.length_eq_zero.mp (by omega)
            subst hws'
            refine ⟨fun hsol => ?_, fun _ => rfl⟩
            rcases hsol with ⟨w', hw', x, hx, y, hy, hcon⟩
            rcases List.mem_cons.mp hw' with rfl | hw''
            · exact absurd hcon (hnosolw x hx y hy)
            · exact absurd hw'' (List.not_mem_nil w')

/-- Top-level wrapper: a full `backtrack({}, csp)` run on the triangle with
MRV-selected root `r` is complete and sound for the current domains. -/
theorem tri_top (r p q : V3) (h3 : triRoles r p q) (d : V3 → List ℕ)
    (hsel : select_unassigned_variable [] d cspTri = some r)
    (hwnd : (d r).Nodup) (hpnd : (d p).Nodup) (hqnd : (d q).Nodup)
    (hb1 : (d r).length ≤ (d p).length) (hb2 : (d r).length ≤ (d q).length) :
    ((∃ w ∈ d r, ∃ x ∈ d p, ∃ y ∈ d q, w ≠ x ∧ w ≠ y ∧ x ≠ y) →
      ∃ res, (backtrackF 4 [] d cspTri).1 = some (some res) ∧
        validTriAssign res = true) ∧
    ((¬ ∃ w ∈ d r, ∃ x ∈ d p, ∃ y ∈ d q, w ≠ x ∧ w ≠ y ∧ x ≠ y) →
      (backtrackF 4 [] d cspTri).1 = some none) := by
  have hrun : backtrackF 4 [] d cspTri =
      tryValues (fun a' d' => backtrackF 3 a' d' cspTri) cspTri r [] (d r) d := by
    simp only [backtrackF]
    rw [if_neg (by simp [cspTri]), hsel]
  obtain ⟨mA, mB⟩ := tri_root_loop r p q h3 (d p) (d q) hpnd hqnd (d r) d
    hwnd hpnd hqnd hb1 hb2 (Or.inl ⟨fun t => Iff.rfl, fun t => Iff.rfl⟩)
  constructor
  · intro hsol
    obtain ⟨res, hres, hval⟩ := mA hsol
    exact ⟨res, by rw [hrun]; exact hres, hval⟩
  · intro hnsol
    rw [hrun]
    exact mB hnsol

/-- **C2** Backtracking completeness on the classic all-different triangle:
for every instance over the variables `A, B, C` with one inequality
constraint per pair and arbitrary duplicate-free natural-number domains of
size at most three, `backtrack({}, csp)` (fuel 4 = variable count + 1, which
`backtrackF_terminates` shows suffices) returns an assignment satisfying all
constraints whenever a satisfying total assignment exists, and returns the
failure value `None` exactly when no satisfying total assignment exists. -/
theorem backtrack_triangle_completeness (dA dB dC : List Nat)
    (hAnd : dA.Nodup) (hBnd : dB.Nodup) (hCnd : dC.Nodup)
    (hAl : dA.length ≤ 3) (hBl : dB.length ≤ 3) (hCl : dC.length ≤ 3) :
    ((∃ x ∈ dA, ∃ y ∈ dB, ∃ z ∈ dC, x ≠ y ∧ x ≠ z ∧ y ≠ z) →
      ∃ res, (backtrackF 4 [] (mkDoms dA dB dC) cspTri).1 = some (some res) ∧
        validTriAssign res = true) ∧
    (¬ (∃ x ∈ dA, ∃ y ∈ dB, ∃ z ∈ dC, x ≠ y ∧ x ≠ z ∧ y ≠ z) →
      (backtrackF 4 [] (mkDoms dA dB dC) cspTri).1 = some none) := by
  have hfil : cspTri.vars.filter
      (fun v => (alookup ([] : List (V3 × ℕ)) v).isNone) =
      [V3.A, V3.B, V3.C] := rfl
  by_cases h1 : (mkDoms dA dB dC V3.B).length < (mkDoms dA dB dC V3.A).length
  · by_cases h2 : (mkDoms dA dB dC V3.C).length < (mkDoms dA dB dC V3.B).length
    · -- the root is C
      have hsel : select_unassigned_variable [] (mkDoms dA dB dC) cspTri =
          some V3.C := by
        rw [select_unassigned_variable, hfil]
        simp only [minByDomLen, List.foldl_cons, List.foldl_nil]
        rw [if_pos h1, if_pos h2]
      obtain ⟨tA, tB⟩ := tri_top V3.C V3.A V3.B (Or.inr (Or.inr ⟨rfl, rfl, rfl⟩))
        (mkDoms dA dB dC) hsel hCnd hAnd hBnd
        (Nat.le_of_lt (Nat.lt_trans h2 h1)) (Nat.le_of_lt h2)
      constructor
      · intro hsol
        obtain ⟨x, hx, y, hy, z, hz, hxy, hxz, hyz⟩ := hsol
        exact tA ⟨z, hz, x, hx, y, hy, Ne.symm hxz, Ne.symm hyz, hxy⟩
      · intro hnsol
        refine tB (fun hh => ?_)
        obtain ⟨w, hw, x, hx, y, hy, c1, c2, c3⟩ := hh
        exact hnsol ⟨x, hx, y, hy, w, hw, c3, Ne.symm c1, Ne.symm c2⟩
    · -- the root is B
      have hsel : select_unassigned_variable [] (mkDoms dA dB dC) cspTri =
          some V3.B := by
        rw [select_unassigned_variable, hfil]
        simp only [minByDomLen, List.foldl_cons, List.foldl_nil]
        rw [if_pos h1, if_neg h2]
      obtain ⟨tA, tB⟩ := tri_top V3.B V3.A V3.C (Or.inr (Or.inl ⟨rfl, rfl, rfl⟩))
        (mkDoms dA dB dC) hsel hBnd hAnd hCnd
        (Nat.le_of_lt h1) (Nat.le_of_not_lt h2)
      constructor
      · intro hsol
        obtain ⟨x, hx, y, hy, z, hz, hxy, hxz, hyz⟩ := hsol
        exact tA ⟨y, hy, x, hx, z, hz, Ne.symm hxy, hyz, hxz⟩
      · intro hnsol
        refine tB (fun hh => ?_)
        obtain ⟨w, hw, x, hx, y, hy, c1, c2, c3⟩ := hh
        exact hnsol ⟨x, hx, w, hw, y, hy, Ne.symm c1, c3, c2⟩
  · by_cases h3 : (mkDoms dA dB dC V3.C).length < (mkDoms dA dB dC V3.A).length
    · -- the root is C (first minimum held by A over B, beaten by C)
      have hsel : select_unassigned_variable [] (mkDoms dA dB dC) cspTri =
          some V3.C := by
        rw [select_unassigned_variable, hfil]
        simp only [minByDomLen, List.foldl_cons, List.foldl_nil]
        rw [if_neg h1, if_pos h3]
      obtain ⟨tA, tB⟩ := tri_top V3.C V3.A V3.B (Or.inr (Or.inr ⟨rfl, rfl, rfl⟩))
        (mkDoms dA dB dC) hsel hCnd hAnd hBnd
        (Nat.le_of_lt h3) (Nat.le_trans (Nat.le_of_lt h3) (Nat.le_of_not_lt h1))
      constructor
      · intro hsol
        obtain ⟨x, hx, y, hy, z, hz, hxy, hxz, hyz⟩ := hsol
        exact tA ⟨z, hz, x, hx, y, hy, Ne.symm hxz, Ne.symm hyz, hxy⟩
      · intro hnsol
        refine tB (fun hh => ?_)
        obtain ⟨w, hw, x, hx, y, hy, c1, c2, c3⟩ := hh
        exact hnsol ⟨x, hx, y, hy, w, hw, c3, Ne.symm c1, Ne.symm c2⟩
    · -- the root is A
      have hsel : select_unassigned_variable [] (mkDoms dA dB dC) cspTri =
          some V3.A := by
        rw [select_unassigned_variable, hfil]
        simp only [minByDomLen, List.foldl_cons, List.foldl_nil]
        rw [if_neg h1, if_neg h3]
      obtain ⟨tA, tB⟩ := tri_top V3.A V3.B V3.C (Or.inl ⟨rfl, rfl, rfl⟩)
        (mkDoms dA dB dC) hsel hAnd hBnd hCnd
        (Nat.le_of_not_lt h1) (Nat.le_of_not_lt h3)
      constructor
      · intro hsol
        obtain ⟨x, hx, y, hy, z, hz, hxy, hxz, hyz⟩ := hsol
        exact tA ⟨x, hx, y, hy, z, hz, hxy, hxz, hyz⟩
      · intro hnsol
        refine tB (fun hh => ?_)
        obtain ⟨w, hw, x, hx, y, hy, c1, c2, c3⟩ := hh
        exact hnsol ⟨w, hw, x, hx, y, hy, c1, c2, c3⟩

/-- Witness for `backtrack_triangle_completeness`: the instance
`A = [1, 2]`, `B = [3]`, `C = [4]` (domains outside any fixed small palette)
is satisfiable, so the solver must return a valid assignment. -/
theorem backtrack_triangle_completeness_witness :
    ∃ res, (backtrackF 4 [] (mkDoms [1, 2] [3] [4]) cspTri).1 =
        some (some res) ∧ validTriAssign res = true :=
  (backtrack_triangle_completeness [1, 2] [3] [4] (by decide) (by decide)
      (by decide) (by decide) (by decide) (by decide)).1 (by decide)

/-! ### Concrete-run claims (C5 and C1) -/

/-- **C5** On the module's concrete chained-inequality instance (variables
`A, B, C`; domains `A = [1,2,3]`, `B = [1,2,3]`, `C = [2,3]`; constraints
`B = A + 1` and `C ≠ B` with neighbor edges `A–B` and `B–C`), `ac3` returns
`true` (the worklist loop terminates within 16 iterations with result
`True`) and the final domains are exactly `A = [1,2]`, `B = [2,3]`,
`C = [2,3]`. -/
theorem ac3_concrete_chain :
    (ac3 16 cspAc).1 = some true ∧
    (ac3 16 cspAc).2.domains V3.A = [1, 2] ∧
    (ac3 16 cspAc).2.domains V3.B = [2, 3] ∧
    (ac3 16 cspAc).2.domains V3.C = [2, 3] := by
  decide

/-- **C1** The claim that no domain value is permanently lost on a failed
branch is refuted by the code: on the triangle with domains `A = [1]`,
`B = [1, 2]`, `C = [1]`, assigning `A := 1` makes `forward_checking` prune
`1` from `B`, then hit the empty domain at `C` and return the bare conflict
value `None`, discarding the record of both prunings; `remove_inference`
restores nothing, the whole search fails, and the final domains are
`B = [2]`, `C = []` instead of the pre-search `B = [1, 2]`, `C = [1]`. -/
theorem forward_checking_loses_removals :
    (backtrackF 4 [] (mkDoms [1] [1, 2] [1]) cspTri).1 = some none ∧
    (backtrackF 4 [] (mkDoms [1] [1, 2] [1]) cspTri).2 V3.B = [2] ∧
    (backtrackF 4 [] (mkDoms [1] [1, 2] [1]) cspTri).2 V3.C = [] := by
  decide

end CSP
